import Mathlib

/-
Verification of the ray-tracing renderer specification against the code.

The numeric substrate of the program is f64.  Wherever the claims are about
exact arithmetic and comparisons we embed f64 as the rationals, which keeps
every definition computable and every concrete witness decidable.  The two
places where f64 behaviour is genuinely non-rational are handled separately:

* ray-t query intervals may carry infinite bounds (Interval::UNIVERSE and
  the renderer query [0.001, inf)), so interval endpoints for hit queries are
  modelled as extended rationals (WithBot (WithTop Rat));
* the color pipeline and the radiance estimator manipulate NaN and infinity
  explicitly, so those claims use an IEEE-style scalar type F with dedicated
  nan and infinity constructors over the reals.

Real-valued geometry (square roots, pi) is embedded over the reals.
-/

namespace RT

/-- Axis enumeration, from src/vec3/mod.rs (enum Axis). -/
inductive Axis where
  | X : Axis
  | Y : Axis
  | Z : Axis
deriving DecidableEq, Repr

/-- Three-component vector, from src/vec3/mod.rs (struct Vec3). -/
@[ext] structure Vec3 (α : Type) where
  x : α
  y : α
  z : α
deriving DecidableEq, Repr

/-- Component access, from src/vec3/mod.rs (Vec3::component). -/
def Vec3.component {α : Type} (v : Vec3 α) : Axis → α
  | Axis.X => v.x
  | Axis.Y => v.y
  | Axis.Z => v.z

/-- Extended rationals: the value space of f64 interval endpoints, with
bottom standing for negative infinity and the inner top for positive
infinity.  Order and min/max agree with IEEE comparisons on non-NaN data. -/
abbrev ERat : Type := WithBot (WithTop ℚ)

/-- Embedding of a finite rational into the extended rationals. -/
def qe (q : ℚ) : ERat := ((q : WithTop ℚ) : ERat)

/-- Positive infinity as an extended rational. -/
def pinfE : ERat := ((⊤ : WithTop ℚ) : ERat)

/-- Negative infinity as an extended rational. -/
def ninfE : ERat := (⊥ : ERat)

@[simp] theorem qe_lt_qe {a b : ℚ} : qe a < qe b ↔ a < b := by
  simp [qe]

@[simp] theorem qe_le_qe {a b : ℚ} : qe a ≤ qe b ↔ a ≤ b := by
  simp [qe]

@[simp] theorem qe_lt_pinfE (a : ℚ) : qe a < pinfE := by
  simp [qe, pinfE]
  exact WithBot.coe_lt_coe.mpr (WithTop.coe_lt_top a)

@[simp] theorem ninfE_lt_qe (a : ℚ) : ninfE < qe a := by
  simp [qe, ninfE]

/-- Interval with finite rational bounds, from src/interval/mod.rs (struct
Interval).  Used for the AABB slab bounds, which the program always builds
from finite primitive coordinates. -/
structure Interval where
  min : ℚ
  max : ℚ
deriving DecidableEq, Repr

namespace Interval

/-- From src/interval/mod.rs (Interval::new). -/
def new (min max : ℚ) : Interval := ⟨min, max⟩

/-- From src/interval/mod.rs (Interval::from_interval): the interval tightly
enclosing the two inputs. -/
def from_interval (a b : Interval) : Interval :=
  ⟨Min.min a.min b.min, Max.max a.max b.max⟩

/-- From src/interval/mod.rs (Interval::size). -/
def size (i : Interval) : ℚ := i.max - i.min

/-- From src/interval/mod.rs (Interval::contains). -/
def contains (i : Interval) (x : ℚ) : Prop := i.min ≤ x ∧ x ≤ i.max

instance (i : Interval) (x : ℚ) : Decidable (i.contains x) := by
  unfold contains; infer_instance

/-- From src/interval/mod.rs (Interval::expand), written functionally: the
source mutates min and max in place by half the delta each. -/
def expand (i : Interval) (delta : ℚ) : Interval :=
  ⟨i.min - delta / 2, i.max + delta / 2⟩

end Interval

/-- Ray-t query interval: same struct as Interval in the source, but its
endpoints may be infinite there (Interval::UNIVERSE, the camera query
[0.001, inf)), so the model gives the hit-query copies extended bounds. -/
structure TInterval where
  min : ERat
  max : ERat
deriving DecidableEq

namespace TInterval

/-- From src/interval/mod.rs (Interval::surrounds), at a finite point:
strict containment min < x < max. -/
def surrounds (i : TInterval) (t : ℚ) : Prop := i.min < qe t ∧ qe t < i.max

instance (i : TInterval) (t : ℚ) : Decidable (i.surrounds t) := by
  unfold surrounds; infer_instance

/-- Interval::UNIVERSE from src/interval/mod.rs: bounds -inf and +inf. -/
def univI : TInterval := ⟨ninfE, pinfE⟩

end TInterval

/-- Ray, from src/ray/mod.rs (struct Ray): origin, direction and time. -/
structure Ray where
  orig : Vec3 ℚ
  dir : Vec3 ℚ
  tm : ℚ
deriving DecidableEq, Repr

/-- From src/ray/mod.rs (Ray::at): orig + dir * t, componentwise. -/
def Ray.at (r : Ray) (t : ℚ) : Vec3 ℚ :=
  ⟨r.orig.x + r.dir.x * t, r.orig.y + r.dir.y * t, r.orig.z + r.dir.z * t⟩

/-- Axis-aligned bounding box, from src/aabb/mod.rs (struct AABB). -/
structure AABB where
  x : Interval
  y : Interval
  z : Interval
deriving DecidableEq, Repr

namespace AABB

/-- From src/aabb/mod.rs (AABB::axis_interval). -/
def axis_interval (b : AABB) : Axis → Interval
  | Axis.X => b.x
  | Axis.Y => b.y
  | Axis.Z => b.z

/-- From src/aabb/mod.rs (AABB::pad_to_minimums), written functionally: each
axis whose size is below delta = 0.0001 is expanded by delta. -/
def pad_to_minimums (b : AABB) : AABB :=
  let delta : ℚ := 1 / 10000
  ⟨if b.x.size < delta then b.x.expand delta else b.x,
   if b.y.size < delta then b.y.expand delta else b.y,
   if b.z.size < delta then b.z.expand delta else b.z⟩

/-- From src/aabb/mod.rs (AABB::from_interval): store the three axis
intervals, then pad. -/
def from_interval (x y z : Interval) : AABB :=
  pad_to_minimums ⟨x, y, z⟩

/-- From src/aabb/mod.rs (AABB::from_point): treat the two points as
extrema in each axis, then pad. -/
def from_point (a b : Vec3 ℚ) : AABB :=
  pad_to_minimums
    ⟨⟨min a.x b.x, max a.x b.x⟩,
     ⟨min a.y b.y, max a.y b.y⟩,
     ⟨min a.z b.z, max a.z b.z⟩⟩

/-- From src/aabb/mod.rs (AABB::from_bounding_box): enclose the two boxes
axiswise, then pad. -/
def from_bounding_box (b1 b2 : AABB) : AABB :=
  pad_to_minimums
    ⟨Interval.from_interval b1.x b2.x,
     Interval.from_interval b1.y b2.y,
     Interval.from_interval b1.z b2.z⟩

/-- From src/aabb/mod.rs (AABB::longest_axis): the axis of maximum size,
with the tie order of the source (X wins over Y and Z, then Y over Z). -/
def longest_axis (b : AABB) : Axis :=
  if b.x.size ≥ b.y.size ∧ b.x.size ≥ b.z.size then Axis.X
  else if b.y.size ≥ b.z.size then Axis.Y
  else Axis.Z

/-- One axis of the slab test in AABB::hit (src/aabb/mod.rs lines 89-101).

For a nonzero direction component the source computes
t0 = (ax.min - orig) * (1/d), t1 = (ax.max - orig) * (1/d), then
min_check = max(ray_t.min, min(t0, t1)), max_check = min(ray_t.max,
max(t0, t1)), and fails the axis when max_check <= min_check.  The
ray_t bounds live in the extended rationals; t0, t1 are finite.

For a zero direction component the source computes 1/0.0 = +inf, so t0 and
t1 are +inf when the plane offset is positive, -inf when negative, and NaN
(0 * inf) when the origin sits exactly on the plane.  Rust f64::min and
f64::max ignore a NaN argument.  Walking the nine sign cases of
(ax.min - orig, ax.max - orig) gives: the axis passes exactly when the
origin is strictly between the two planes (in either plane order), or both
plane offsets are zero, and in those cases the pass condition degenerates
to ray_t.min < ray_t.max; every other case fails.  That disjunction is
encoded verbatim below. -/
def slab_pass (ax : Interval) (o d : ℚ) (rt : TInterval) : Bool :=
  if d = 0 then
    decide (((ax.min < o ∧ o < ax.max) ∨ (ax.max < o ∧ o < ax.min) ∨
             (ax.min = o ∧ ax.max = o)) ∧ rt.min < rt.max)
  else
    let ad_inv := d⁻¹
    let t0 := (ax.min - o) * ad_inv
    let t1 := (ax.max - o) * ad_inv
    decide (max rt.min (qe (min t0 t1)) < min rt.max (qe (max t0 t1)))

/-- From src/aabb/mod.rs (AABB::hit): the per-axis loop with early return
false is the conjunction of the three axis tests. -/
def hit (b : AABB) (r : Ray) (rt : TInterval) : Bool :=
  slab_pass b.x r.orig.x r.dir.x rt &&
  slab_pass b.y r.orig.y r.dir.y rt &&
  slab_pass b.z r.orig.z r.dir.z rt

end AABB

/-- Result of a successful intersection, from src/hittable/mod.rs (struct
HitRecord).  The claims compare the parametric distance, the material and
the hit point, so the model carries those three; the remaining fields
(normal, uv, front_face) are fixed functions of the primitive and t and are
determined by these. Materials are identified by an index, since the claims
only ask that the same material reference is returned. -/
structure HitRec where
  t : ℚ
  matId : ℕ
  point : Vec3 ℚ
deriving DecidableEq, Repr

/-- A primitive of the scene, relative to a fixed ray: the Hittable
capability of src/hittable/mod.rs restricted to what hit queries observe.
ts lists the parametric intersection distances of the given ray with the
primitive (for a sphere: the real roots of the hit quadratic), matId its
material, box its cached bounding box.  Primitive hit functions (sphere,
quad, ...) return the smallest root strictly inside the query interval, as
Sphere::hit does via two surrounds checks; Prim.hit below implements that
contract. -/
structure Prim where
  ts : List ℚ
  matId : ℕ
  box : AABB
deriving DecidableEq, Repr

/-- Least element of a rational list, as an Option. -/
def listMin : List ℚ → Option ℚ
  | [] => none
  | t :: ts =>
    some (match listMin ts with
          | none => t
          | some m => Min.min t m)

/-- Hittable::hit for a primitive: the nearest intersection strictly inside
the query interval (Interval::surrounds), or none; the record carries the
primitive material and the point ray.at(t), as the primitive hit functions
in src/sphere/mod.rs and src/quad/mod.rs construct it. -/
def Prim.hit (p : Prim) (ray : Ray) (rt : TInterval) : Option HitRec :=
  match listMin (p.ts.filter (fun t => decide (rt.surrounds t))) with
  | none => none
  | some t => some ⟨t, p.matId, ray.at t⟩

/-- The running state of HittableList::hit (src/hittable_list/mod.rs lines
50-76) is the best record so far; closest_so_far always equals the best
record distance once one is found, and the original upper bound before. -/
def bestT : Option HitRec → ERat → ERat
  | some r, _ => qe r.t
  | none, m => m

/-- The object loop of HittableList::hit: each object is queried on
Interval::new(ray_t.min, closest_so_far) and the record and closest bound
are updated on success. -/
def scanFrom (ray : Ray) (tmin tmax0 : ERat) : List Prim → Option HitRec → Option HitRec
  | [], best => best
  | p :: rest, best =>
    match p.hit ray ⟨tmin, bestT best tmax0⟩ with
    | some r => scanFrom ray tmin tmax0 rest (some r)
    | none => scanFrom ray tmin tmax0 rest best

/-- HittableList::hit from src/hittable_list/mod.rs: linear scan with a
narrowing closest_so_far, starting from ray_t.max and no record. -/
def HittableList.hit (objects : List Prim) (ray : Ray) (rt : TInterval) : Option HitRec :=
  scanFrom ray rt.min rt.max objects none

/-- BVH binary tree: a node owns two children and a cached bounding box,
from src/bvh_node/mod.rs (struct BVHNode); leaves are the shared primitive
Hittables the tree is built over. -/
inductive BVHTree where
  | leaf (p : Prim) : BVHTree
  | node (left right : BVHTree) (bounding_box : AABB) : BVHTree
deriving DecidableEq, Repr

namespace BVHTree

/-- Hittable::bounding_box for a tree: the cached box at a node, the
primitive box at a leaf. -/
def boxOf : BVHTree → AABB
  | leaf p => p.box
  | node _ _ b => b

/-- The primitives of a tree, left to right. -/
def leaves : BVHTree → List Prim
  | leaf p => [p]
  | node l r _ => leaves l ++ leaves r

/-- Left child of a node (the node itself on a leaf, unused there). -/
def leftChild : BVHTree → BVHTree
  | leaf p => leaf p
  | node l _ _ => l

/-- Right child of a node (the node itself on a leaf, unused there). -/
def rightChild : BVHTree → BVHTree
  | leaf p => leaf p
  | node _ r _ => r

/-- BVHNode::hit from src/bvh_node/mod.rs lines 89-106: prune when the node
box misses; otherwise query the left child on the full interval, then the
right child on Interval::new(ray_t.min, rec.t if the left hit else
ray_t.max); the returned record is the right result when present, else the
left one (hit_right || hit_left with rec last written by the right child).
A leaf is a primitive Hittable and runs its own hit directly. -/
def hit (ray : Ray) : BVHTree → TInterval → Option HitRec
  | leaf p, rt => p.hit ray rt
  | node l r b, rt =>
    if AABB.hit b ray rt then
      let resL := hit ray l rt
      let resR := hit ray r ⟨rt.min, bestT resL rt.max⟩
      match resR with
      | some rec => some rec
      | none => resL
    else
      none

end BVHTree

/-- BVHNode::box_compare from src/bvh_node/mod.rs lines 75-86: compare two
Hittables by the minimum of their bounding-box interval along the chosen
axis; ties are Equal. -/
def box_compare (a b : Prim) (axis : Axis) : Ordering :=
  if (a.box.axis_interval axis).min < (b.box.axis_interval axis).min then Ordering.lt
  else if (a.box.axis_interval axis).min > (b.box.axis_interval axis).min then Ordering.gt
  else Ordering.eq

/-- Stable insertion into a list sorted by box_compare along the axis: the
element moves left past exactly the strictly greater elements.  This is the
unique stable-sort insertion step, so sortObjects below computes the same
arrangement as the stable slice sort_by in BVHNode::from_vector. -/
def sortInsert (axis : Axis) (p : Prim) : List Prim → List Prim
  | [] => [p]
  | q :: rest =>
    if box_compare q p axis = Ordering.lt then q :: sortInsert axis p rest
    else p :: q :: rest

/-- Stable sort by box_compare along the axis, modelling the in-place
obj_slice.sort_by of BVHNode::from_vector. -/
def sortObjects (axis : Axis) : List Prim → List Prim
  | [] => []
  | p :: rest => sortInsert axis p (sortObjects axis rest)

@[simp] theorem sortInsert_length (axis : Axis) (p : Prim) (l : List Prim) :
    (sortInsert axis p l).length = l.length + 1 := by
  induction l with
  | nil => simp [sortInsert]
  | cons q rest ih =>
    by_cases h : box_compare q p axis = Ordering.lt <;> simp [sortInsert, h, ih]

@[simp] theorem sortObjects_length (axis : Axis) (l : List Prim) :
    (sortObjects axis l).length = l.length := by
  induction l with
  | nil => rfl
  | cons p rest ih => simp [sortObjects, ih]

@[simp] theorem mem_sortInsert {axis : Axis} {p q : Prim} {l : List Prim} :
    q ∈ sortInsert axis p l ↔ q = p ∨ q ∈ l := by
  induction l with
  | nil => simp [sortInsert]
  | cons a rest ih =>
    by_cases h : box_compare a p axis = Ordering.lt
    · simp only [sortInsert, if_pos h, List.mem_cons, ih]
      tauto
    · simp only [sortInsert, if_neg h, List.mem_cons]

@[simp] theorem mem_sortObjects {axis : Axis} {q : Prim} {l : List Prim} :
    q ∈ sortObjects axis l ↔ q ∈ l := by
  induction l with
  | nil => simp [sortObjects]
  | cons p rest ih => simp [sortObjects, ih]

/-- BVHNode::from_vector from src/bvh_node/mod.rs lines 28-68, on the span
start..end of the shared vector.  One element: both children are that
element.  Two elements: the children are the two slice elements in their
current order (the source takes objects[start] and objects[start + 1]
directly, without consulting the comparator).  Three or more: sort the span
by box_compare along the axis, split at span/2 and recurse.  The node box
is always from_bounding_box of the two children boxes.

The sort axis in the source is longest_axis of the union of the bounding
boxes of the WHOLE vector (the loop at lines 30-32 runs over all objects,
not the span), so it is the same at every recursion level: the vector only
gets permuted between calls and the union fold is permutation-invariant for
padded boxes.  The model therefore computes the axis once (sceneAxis below)
and passes it down. -/
def fromVector (axis : Axis) : List Prim → BVHTree
  | [] =>
    -- unreachable: from_vector on an empty span does not terminate in the
    -- source, and the top theorem assumes a nonempty scene
    BVHTree.leaf ⟨[], 0, AABB.from_point ⟨0, 0, 0⟩ ⟨1, 1, 1⟩⟩
  | [p] => BVHTree.node (BVHTree.leaf p) (BVHTree.leaf p) (AABB.from_bounding_box p.box p.box)
  | [a, b] => BVHTree.node (BVHTree.leaf a) (BVHTree.leaf b) (AABB.from_bounding_box a.box b.box)
  | a :: b :: c :: rest =>
    let l := a :: b :: c :: rest
    let s := sortObjects axis l
    let lt := fromVector axis (s.take (l.length / 2))
    let rt := fromVector axis (s.drop (l.length / 2))
    BVHTree.node lt rt (AABB.from_bounding_box lt.boxOf rt.boxOf)
termination_by l => l.length
decreasing_by
  · simp; omega
  · simp; omega

/-- The arrangement of the shared vector after BVHNode::from_vector has run:
the source sorts each span of three or more in place before recursing, so
the final vector is the recursively sorted halves; spans of one or two are
left untouched. -/
def postList (axis : Axis) : List Prim → List Prim
  | [] => []
  | [p] => [p]
  | [a, b] => [a, b]
  | a :: b :: c :: rest =>
    let l := a :: b :: c :: rest
    let s := sortObjects axis l
    postList axis (s.take (l.length / 2)) ++ postList axis (s.drop (l.length / 2))
termination_by l => l.length
decreasing_by
  · simp; omega
  · simp; omega

/-- The union-box fold at the top of BVHNode::from_vector (lines 29-32):
starting from AABB::EMPTY, fold AABB::from_bounding_box over every object
box.  EMPTY has sentinel bounds min = +inf, max = -inf, so the first union
step returns the padded first box; the model renders EMPTY as the absent
accumulator. -/
def unionStep (acc : Option AABB) (b : AABB) : Option AABB :=
  match acc with
  | none => some (AABB.pad_to_minimums b)
  | some a => some (AABB.from_bounding_box a b)

/-- Union of all primitive boxes of the scene, as folded by from_vector. -/
def unionBoxAll (l : List Prim) : Option AABB :=
  l.foldl (fun acc p => unionStep acc p.box) none

/-- The sort axis used at every level of from_vector: longest_axis of the
union of all boxes (Axis::X for the unreachable empty scene, matching
longest_axis of AABB::EMPTY whose sizes are all -inf). -/
def sceneAxis (l : List Prim) : Axis :=
  match unionBoxAll l with
  | none => Axis.X
  | some b => b.longest_axis

/-- BVHNode::from_hittable_list from src/bvh_node/mod.rs lines 70-73:
build over the whole list. -/
def fromHittableList (l : List Prim) : BVHTree :=
  fromVector (sceneAxis l) l

/-- The arrangement of the list after BVHNode::from_hittable_list. -/
def postBuildList (l : List Prim) : List Prim :=
  postList (sceneAxis l) l

/-- A box is padded: every axis size at least delta = 0.0001.  This is the
AABB invariant of the data model (every constructor ends in
pad_to_minimums), assumed of the primitive boxes handed to the BVH. -/
def PaddedBox (b : AABB) : Prop :=
  (1 / 10000 : ℚ) ≤ b.x.size ∧ (1 / 10000 : ℚ) ≤ b.y.size ∧ (1 / 10000 : ℚ) ≤ b.z.size

instance (b : AABB) : Decidable (PaddedBox b) := by
  unfold PaddedBox; infer_instance

/-- A box with strictly ordered bounds on every axis. -/
def ProperBox (b : AABB) : Prop :=
  b.x.min < b.x.max ∧ b.y.min < b.y.max ∧ b.z.min < b.z.max

instance (b : AABB) : Decidable (ProperBox b) := by
  unfold ProperBox; infer_instance

/-- Axiswise box containment: sub lies inside sup. -/
def boxLE (sub sup : AABB) : Prop :=
  sup.x.min ≤ sub.x.min ∧ sub.x.max ≤ sup.x.max ∧
  sup.y.min ≤ sub.y.min ∧ sub.y.max ≤ sup.y.max ∧
  sup.z.min ≤ sub.z.min ∧ sub.z.max ≤ sup.z.max

/-- The Hittable contract between a primitive and its cached bounding box,
relative to a ray (section 4.3 of the design: bounding_box returns a box
fully enclosing the primitive): whenever the box slab test rejects a query
interval, the primitive has no intersection parameter strictly inside it. -/
def SoundPrim (ray : Ray) (p : Prim) : Prop :=
  ∀ rt : TInterval, AABB.hit p.box ray rt = false → ∀ t ∈ p.ts, ¬ rt.surrounds t

/-- Well-formedness of a BVH tree for a ray: primitive boxes are padded and
sound, and every node box contains its children boxes and is proper.
from_vector establishes this by construction (fromVector_WF below). -/
def WF (ray : Ray) : BVHTree → Prop
  | BVHTree.leaf p => PaddedBox p.box ∧ SoundPrim ray p
  | BVHTree.node l r b => WF ray l ∧ WF ray r ∧ boxLE l.boxOf b ∧ boxLE r.boxOf b ∧ ProperBox b

theorem ProperBox.of_padded {b : AABB} (h : PaddedBox b) : ProperBox b := by
  obtain ⟨h1, h2, h3⟩ := h
  refine ⟨?_, ?_, ?_⟩ <;> simp only [Interval.size] at * <;> linarith

theorem WF_proper {ray : Ray} {T : BVHTree} (h : WF ray T) : ProperBox T.boxOf := by
  cases T with
  | leaf p => exact ProperBox.of_padded h.1
  | node l r b => exact h.2.2.2.2

/-- The slab test is monotone under slab enlargement: if an axis of a
contained strictly proper box passes, the enclosing axis passes too. -/
theorem slab_pass_mono {axs axb : Interval} {o d : ℚ} {rt : TInterval}
    (hsub : axs.min < axs.max) (h1 : axb.min ≤ axs.min) (h2 : axs.max ≤ axb.max)
    (hp : AABB.slab_pass axs o d rt = true) : AABB.slab_pass axb o d rt = true := by
  by_cases hd : d = 0
  · simp only [AABB.slab_pass, hd, if_pos, decide_eq_true_eq] at hp ⊢
    obtain ⟨hdisj, hrt⟩ := hp
    refine ⟨?_, hrt⟩
    rcases hdisj with ⟨hm, hM⟩ | ⟨hM, hm⟩ | ⟨e1, e2⟩
    · exact Or.inl ⟨lt_of_le_of_lt h1 hm, lt_of_lt_of_le hM h2⟩
    · exact absurd (lt_trans hM hm) (not_lt.mpr hsub.le)
    · rw [e1, ← e2] at hsub
      exact absurd hsub (lt_irrefl _)
  · simp only [AABB.slab_pass, hd, if_neg, ite_false, decide_eq_true_eq] at hp ⊢
    have key : Min.min ((axb.min - o) * d⁻¹) ((axb.max - o) * d⁻¹) ≤
          Min.min ((axs.min - o) * d⁻¹) ((axs.max - o) * d⁻¹) ∧
        Max.max ((axs.min - o) * d⁻¹) ((axs.max - o) * d⁻¹) ≤
          Max.max ((axb.min - o) * d⁻¹) ((axb.max - o) * d⁻¹) := by
      rcases lt_or_gt_of_ne hd with hneg | hpos
      · have hinv : d⁻¹ < 0 := inv_neg''.mpr hneg
        have ht0 : (axs.min - o) * d⁻¹ ≤ (axb.min - o) * d⁻¹ :=
          mul_le_mul_of_nonpos_right (by linarith) hinv.le
        have ht1 : (axb.max - o) * d⁻¹ ≤ (axs.max - o) * d⁻¹ :=
          mul_le_mul_of_nonpos_right (by linarith) hinv.le
        have hss : (axs.max - o) * d⁻¹ ≤ (axs.min - o) * d⁻¹ :=
          mul_le_mul_of_nonpos_right (by linarith) hinv.le
        constructor
        · rw [min_eq_right hss]
          exact le_trans (min_le_right _ _) ht1
        · rw [max_eq_left hss]
          exact le_trans ht0 (le_max_left _ _)
      · have hinv : 0 < d⁻¹ := inv_pos.mpr hpos
        have ht0 : (axb.min - o) * d⁻¹ ≤ (axs.min - o) * d⁻¹ :=
          mul_le_mul_of_nonneg_right (by linarith) hinv.le
        have ht1 : (axs.max - o) * d⁻¹ ≤ (axb.max - o) * d⁻¹ :=
          mul_le_mul_of_nonneg_right (by linarith) hinv.le
        have hss : (axs.min - o) * d⁻¹ ≤ (axs.max - o) * d⁻¹ :=
          mul_le_mul_of_nonneg_right (by linarith) hinv.le
        constructor
        · rw [min_eq_left hss]
          exact le_trans (min_le_left _ _) ht0
        · rw [max_eq_right hss]
          exact le_trans ht1 (le_max_right _ _)
    calc Max.max rt.min (qe (Min.min ((axb.min - o) * d⁻¹) ((axb.max - o) * d⁻¹)))
        ≤ Max.max rt.min (qe (Min.min ((axs.min - o) * d⁻¹) ((axs.max - o) * d⁻¹))) :=
          max_le_max le_rfl (qe_le_qe.mpr key.1)
      _ < Min.min rt.max (qe (Max.max ((axs.min - o) * d⁻¹) ((axs.max - o) * d⁻¹))) := hp
      _ ≤ Min.min rt.max (qe (Max.max ((axb.min - o) * d⁻¹) ((axb.max - o) * d⁻¹))) :=
          min_le_min le_rfl (qe_le_qe.mpr key.2)

/-- AABB::hit is monotone under box enlargement, for a strictly proper
inner box. -/
theorem AABB.hit_mono {sub sup : AABB} {ray : Ray} {rt : TInterval}
    (hps : ProperBox sub) (hle : boxLE sub sup)
    (h : AABB.hit sub ray rt = true) : AABB.hit sup ray rt = true := by
  simp only [AABB.hit, Bool.and_eq_true] at h ⊢
  obtain ⟨⟨hx, hy⟩, hz⟩ := h
  exact ⟨⟨slab_pass_mono hps.1 hle.1 hle.2.1 hx,
          slab_pass_mono hps.2.1 hle.2.2.1 hle.2.2.2.1 hy⟩,
         slab_pass_mono hps.2.2 hle.2.2.2.2.1 hle.2.2.2.2.2 hz⟩

/-- Pruning is sound for well-formed trees: a node box that misses the
query interval means no primitive below it intersects inside it. -/
theorem no_hit_of_box_miss {ray : Ray} {T : BVHTree} {rt : TInterval} (hwf : WF ray T)
    (hb : AABB.hit T.boxOf ray rt = false) :
    ∀ p ∈ T.leaves, ∀ t ∈ p.ts, ¬ rt.surrounds t := by
  induction T with
  | leaf p =>
    intro q hq
    simp only [BVHTree.leaves, List.mem_singleton] at hq
    subst hq
    exact hwf.2 rt hb
  | node l r b ihl ihr =>
    obtain ⟨hwl, hwr, hlel, hler, hpb⟩ := hwf
    have hchild : ∀ c : BVHTree, WF ray c → boxLE c.boxOf b →
        AABB.hit c.boxOf ray rt = false := by
      intro c hwc hlec
      cases hcl : AABB.hit c.boxOf ray rt with
      | false => rfl
      | true =>
        have := AABB.hit_mono (WF_proper hwc) hlec hcl
        rw [BVHTree.boxOf] at hb
        rw [this] at hb
        exact absurd hb (by simp)
    intro p hp
    simp only [BVHTree.leaves, List.mem_append] at hp
    rcases hp with hp | hp
    · exact ihl hwl (hchild l hwl hlel) p hp
    · exact ihr hwr (hchild r hwr hler) p hp

@[simp] theorem listMin_eq_none {l : List ℚ} : listMin l = none ↔ l = [] := by
  cases l <;> simp [listMin]

theorem listMin_mem {l : List ℚ} {m : ℚ} (h : listMin l = some m) : m ∈ l := by
  induction l generalizing m with
  | nil => simp [listMin] at h
  | cons t ts ih =>
    cases hts : listMin ts with
    | none =>
      simp only [listMin, hts, Option.some_inj] at h
      subst h
      exact List.mem_cons_self _ _
    | some m2 =>
      simp only [listMin, hts, Option.some_inj] at h
      rcases min_cases t m2 with ⟨he, _⟩ | ⟨he, _⟩
      · rw [he] at h
        subst h
        exact List.mem_cons_self _ _
      · rw [he] at h
        subst h
        exact List.mem_cons_of_mem _ (ih hts)

theorem listMin_le {l : List ℚ} {m : ℚ} (h : listMin l = some m) : ∀ x ∈ l, m ≤ x := by
  induction l generalizing m with
  | nil => simp [listMin] at h
  | cons t ts ih =>
    intro x hx
    cases hts : listMin ts with
    | none =>
      have hnil : ts = [] := listMin_eq_none.mp hts
      subst hnil
      simp only [listMin, Option.some_inj] at h
      simp only [List.mem_singleton] at hx
      subst h; subst hx; exact le_refl _
    | some m2 =>
      simp only [listMin, hts, Option.some_inj] at h
      subst h
      rcases List.mem_cons.mp hx with hx | hx
      · subst hx; exact min_le_left _ _
      · exact le_trans (min_le_right _ _) (ih hts x hx)

theorem Prim.hit_none_iff {p : Prim} {ray : Ray} {rt : TInterval} :
    p.hit ray rt = none ↔ ∀ t ∈ p.ts, ¬ rt.surrounds t := by
  constructor
  · intro h t ht hs
    have hmem : t ∈ p.ts.filter (fun t => decide (rt.surrounds t)) :=
      List.mem_filter.mpr ⟨ht, by simpa using hs⟩
    unfold Prim.hit at h
    cases hm : listMin (p.ts.filter fun t => decide (rt.surrounds t)) with
    | none =>
      rw [listMin_eq_none.mp hm] at hmem
      simp at hmem
    | some m =>
      rw [hm] at h
      simp at h
  · intro h
    have hfil : p.ts.filter (fun t => decide (rt.surrounds t)) = [] := by
      rw [List.filter_eq_nil_iff]
      intro a ha
      simpa using h a ha
    unfold Prim.hit
    rw [hfil]
    rfl

theorem Prim.hit_some {p : Prim} {ray : Ray} {rt : TInterval} {r : HitRec}
    (h : p.hit ray rt = some r) :
    r.t ∈ p.ts ∧ rt.surrounds r.t ∧ (∀ t ∈ p.ts, rt.surrounds t → r.t ≤ t) ∧
      r = ⟨r.t, p.matId, ray.at r.t⟩ := by
  unfold Prim.hit at h
  cases hm : listMin (p.ts.filter fun t => decide (rt.surrounds t)) with
  | none =>
    rw [hm] at h
    simp at h
  | some m =>
    rw [hm] at h
    simp only [Option.some_inj] at h
    subst h
    have hmem := listMin_mem hm
    rw [List.mem_filter] at hmem
    refine ⟨hmem.1, by simpa using hmem.2, ?_, rfl⟩
    intro t ht hs
    exact listMin_le hm t (List.mem_filter.mpr ⟨ht, by simpa using hs⟩)

theorem scanFrom_append (ray : Ray) (tmin tmax0 : ERat) (A B : List Prim)
    (best : Option HitRec) :
    scanFrom ray tmin tmax0 (A ++ B) best =
      scanFrom ray tmin tmax0 B (scanFrom ray tmin tmax0 A best) := by
  induction A generalizing best with
  | nil => rfl
  | cons p rest ih =>
    simp only [List.cons_append, scanFrom]
    cases h : p.hit ray ⟨tmin, bestT best tmax0⟩ with
    | some r => exact ih (some r)
    | none => exact ih best

theorem scanFrom_some_tmax (ray : Ray) (tmin t1 t2 : ERat) (L : List Prim) (r : HitRec) :
    scanFrom ray tmin t1 L (some r) = scanFrom ray tmin t2 L (some r) := by
  induction L generalizing r with
  | nil => rfl
  | cons p rest ih =>
    simp only [scanFrom, bestT]
    cases h : p.hit ray ⟨tmin, qe r.t⟩ with
    | some r1 => exact ih r1
    | none => exact ih r

theorem scanFrom_some_isSome (ray : Ray) (tmin tmax0 : ERat) (L : List Prim) (r : HitRec) :
    ∃ r1, scanFrom ray tmin tmax0 L (some r) = some r1 := by
  induction L generalizing r with
  | nil => exact ⟨r, rfl⟩
  | cons p rest ih =>
    simp only [scanFrom, bestT]
    cases h : p.hit ray ⟨tmin, qe r.t⟩ with
    | some r1 => exact ih r1
    | none => exact ih r

/-- Continuing a scan with a record already in hand is the same as scanning
with the narrowed upper bound and no record, keeping the old record if
nothing closer appears: the closest_so_far state of HittableList::hit
coincides with the narrowed-interval restart the BVH right child performs. -/
theorem scanFrom_shift (ray : Ray) (tmin tmax0 : ERat) (L : List Prim) (r0 : HitRec) :
    scanFrom ray tmin tmax0 L (some r0) =
      match scanFrom ray tmin (qe r0.t) L none with
      | some x => some x
      | none => some r0 := by
  induction L generalizing r0 with
  | nil => rfl
  | cons p rest ih =>
    simp only [scanFrom, bestT]
    cases h : p.hit ray ⟨tmin, qe r0.t⟩ with
    | some r1 =>
      obtain ⟨r2, h2⟩ := scanFrom_some_isSome ray tmin (qe r0.t) rest r1
      show scanFrom ray tmin tmax0 rest (some r1) =
        match scanFrom ray tmin (qe r0.t) rest (some r1) with
        | some x => some x
        | none => some r0
      rw [scanFrom_some_tmax ray tmin tmax0 (qe r0.t) rest r1, h2]
    | none => exact ih r0

theorem scanFrom_no_hits (ray : Ray) (tmin tmax0 : ERat) (L : List Prim)
    (h : ∀ p ∈ L, ∀ t ∈ p.ts, ¬ TInterval.surrounds ⟨tmin, tmax0⟩ t) :
    ∀ best, bestT best tmax0 ≤ tmax0 → scanFrom ray tmin tmax0 L best = best := by
  induction L with
  | nil => intro best _; rfl
  | cons p rest ih =>
    intro best hb
    have hnone : p.hit ray ⟨tmin, bestT best tmax0⟩ = none := by
      rw [Prim.hit_none_iff]
      intro t ht hs
      exact h p (List.mem_cons_self _ _) t ht ⟨hs.1, lt_of_lt_of_le hs.2 hb⟩
    simp only [scanFrom, hnone]
    exact ih (fun q hq => h q (List.mem_cons_of_mem _ hq)) best hb

/-- Scanning the same primitive twice in a row is the same as scanning it
once: the second pass can only look strictly below the first result and the
first result was minimal. -/
theorem scanFrom_dup (ray : Ray) (tmin tmax0 : ERat) (p : Prim) (L : List Prim)
    (best : Option HitRec) :
    scanFrom ray tmin tmax0 (p :: p :: L) best = scanFrom ray tmin tmax0 (p :: L) best := by
  simp only [scanFrom]
  cases h : p.hit ray ⟨tmin, bestT best tmax0⟩ with
  | some r =>
    obtain ⟨hmem, hsur, hmin, _⟩ := Prim.hit_some h
    have h2 : p.hit ray ⟨tmin, bestT (some r) tmax0⟩ = none := by
      rw [Prim.hit_none_iff]
      intro t ht hs
      have hsin : TInterval.surrounds ⟨tmin, bestT best tmax0⟩ t :=
        ⟨hs.1, lt_trans hs.2 hsur.2⟩
      exact absurd (qe_lt_qe.mp hs.2) (not_lt.mpr (hmin t ht hsin))
    simp only [scanFrom, h2]
  | none =>
    simp only [scanFrom, h]

theorem boxLE_trans {a b c : AABB} (h1 : boxLE a b) (h2 : boxLE b c) : boxLE a c := by
  unfold boxLE at *
  refine ⟨?_, ?_, ?_, ?_, ?_, ?_⟩ <;> linarith [h1.1, h1.2.1, h1.2.2.1, h1.2.2.2.1,
    h1.2.2.2.2.1, h1.2.2.2.2.2, h2.1, h2.2.1, h2.2.2.1, h2.2.2.2.1, h2.2.2.2.2.1, h2.2.2.2.2.2]

theorem pad_if_min_le (i : Interval) (delta : ℚ) (hd : 0 ≤ delta) :
    (if i.size < delta then i.expand delta else i).min ≤ i.min := by
  split_ifs with h
  · simp only [Interval.expand]
    linarith
  · exact le_refl _

theorem pad_if_max_ge (i : Interval) (delta : ℚ) (hd : 0 ≤ delta) :
    i.max ≤ (if i.size < delta then i.expand delta else i).max := by
  split_ifs with h
  · simp only [Interval.expand]
    linarith
  · exact le_refl _

theorem boxLE_pad (b : AABB) : boxLE b (AABB.pad_to_minimums b) := by
  unfold AABB.pad_to_minimums
  exact ⟨pad_if_min_le _ _ (by norm_num), pad_if_max_ge _ _ (by norm_num),
    pad_if_min_le _ _ (by norm_num), pad_if_max_ge _ _ (by norm_num),
    pad_if_min_le _ _ (by norm_num), pad_if_max_ge _ _ (by norm_num)⟩

theorem boxLE_from_bounding_box_left (b1 b2 : AABB) :
    boxLE b1 (AABB.from_bounding_box b1 b2) := by
  unfold AABB.from_bounding_box
  refine boxLE_trans ?_ (boxLE_pad _)
  exact ⟨min_le_left _ _, le_max_left _ _, min_le_left _ _, le_max_left _ _,
    min_le_left _ _, le_max_left _ _⟩

theorem boxLE_from_bounding_box_right (b1 b2 : AABB) :
    boxLE b2 (AABB.from_bounding_box b1 b2) := by
  unfold AABB.from_bounding_box
  refine boxLE_trans ?_ (boxLE_pad _)
  exact ⟨min_le_right _ _, le_max_right _ _, min_le_right _ _, le_max_right _ _,
    min_le_right _ _, le_max_right _ _⟩

theorem pad_if_size_ge (i : Interval) (h : 0 < i.size) :
    (1 / 10000 : ℚ) ≤ (if i.size < 1 / 10000 then i.expand (1 / 10000) else i).size := by
  split_ifs with hc
  · simp only [Interval.expand, Interval.size] at *
    linarith
  · exact not_lt.mp hc

theorem union_size_ge_left (a b : Interval) : a.size ≤ (Interval.from_interval a b).size := by
  unfold Interval.from_interval Interval.size
  have h1 : a.max ≤ Max.max a.max b.max := le_max_left _ _
  have h2 : Min.min a.min b.min ≤ a.min := min_le_left _ _
  linarith

/-- Any box enclosure built by AABB::from_bounding_box over a strictly
proper first box is padded: the union size dominates the input size, and
pad_to_minimums tops every positive size up to at least delta. -/
theorem from_bounding_box_padded {b1 b2 : AABB} (h : ProperBox b1) :
    PaddedBox (AABB.from_bounding_box b1 b2) := by
  obtain ⟨h1, h2, h3⟩ := h
  unfold AABB.from_bounding_box AABB.pad_to_minimums PaddedBox
  refine ⟨?_, ?_, ?_⟩
  · exact pad_if_size_ge _ (lt_of_lt_of_le (by simp [Interval.size]; linarith)
      (union_size_ge_left b1.x b2.x))
  · exact pad_if_size_ge _ (lt_of_lt_of_le (by simp [Interval.size]; linarith)
      (union_size_ge_left b1.y b2.y))
  · exact pad_if_size_ge _ (lt_of_lt_of_le (by simp [Interval.size]; linarith)
      (union_size_ge_left b1.z b2.z))

theorem junk_padded : PaddedBox (AABB.from_point ⟨0, 0, 0⟩ ⟨1, 1, 1⟩) := by
  unfold PaddedBox AABB.from_point AABB.pad_to_minimums
  norm_num [Interval.size, Interval.expand]

/-- from_vector builds well-formed trees over padded sound primitives. -/
theorem fromVector_WF (ray : Ray) (axis : Axis) :
    ∀ n (L : List Prim), L.length ≤ n →
      (∀ p ∈ L, PaddedBox p.box ∧ SoundPrim ray p) →
      WF ray (fromVector axis L) := by
  intro n
  induction n with
  | zero =>
    intro L hL _
    have hnil : L = [] := List.length_eq_zero.mp (Nat.le_zero.mp hL)
    subst hnil
    simp only [fromVector]
    refine ⟨junk_padded, ?_⟩
    intro rt h t ht
    simp at ht
  | succ n ih =>
    intro L hL hyp
    rcases L with _ | ⟨a, _ | ⟨b, _ | ⟨c, rest⟩⟩⟩
    · simp only [fromVector]
      refine ⟨junk_padded, ?_⟩
      intro rt h t ht
      simp at ht
    · have ha := hyp a (List.mem_singleton.mpr rfl)
      simp only [fromVector]
      exact ⟨⟨ha.1, ha.2⟩, ⟨ha.1, ha.2⟩,
        boxLE_from_bounding_box_left _ _, boxLE_from_bounding_box_right _ _,
        ProperBox.of_padded (from_bounding_box_padded (ProperBox.of_padded ha.1))⟩
    · have ha := hyp a (by simp)
      have hb := hyp b (by simp)
      simp only [fromVector]
      exact ⟨⟨ha.1, ha.2⟩, ⟨hb.1, hb.2⟩,
        boxLE_from_bounding_box_left _ _, boxLE_from_bounding_box_right _ _,
        ProperBox.of_padded (from_bounding_box_padded (ProperBox.of_padded ha.1))⟩
    · have hys : ∀ p ∈ sortObjects axis (a :: b :: c :: rest),
          PaddedBox p.box ∧ SoundPrim ray p :=
        fun p hp => hyp p (mem_sortObjects.mp hp)
      have hlen : (a :: b :: c :: rest).length ≤ n + 1 := hL
      have h1 : WF ray (fromVector axis
          ((sortObjects axis (a :: b :: c :: rest)).take ((a :: b :: c :: rest).length / 2))) := by
        refine ih _ ?_ (fun p hp => hys p (List.mem_of_mem_take hp))
        simp only [List.length_take, sortObjects_length]
        simp only [List.length_cons] at hlen ⊢
        omega
      have h2 : WF ray (fromVector axis
          ((sortObjects axis (a :: b :: c :: rest)).drop ((a :: b :: c :: rest).length / 2))) := by
        refine ih _ ?_ (fun p hp => hys p (List.mem_of_mem_drop hp))
        simp only [List.length_drop, sortObjects_length]
        simp only [List.length_cons] at hlen ⊢
        omega
      simp only [fromVector]
      exact ⟨h1, h2, boxLE_from_bounding_box_left _ _, boxLE_from_bounding_box_right _ _,
        ProperBox.of_padded (from_bounding_box_padded (WF_proper h1))⟩

/-- Traversal of a well-formed BVH computes exactly the linear scan over its
leaf sequence: the narrowed right-child interval replays the closest_so_far
mechanism of HittableList::hit, and box pruning removes only primitives that
cannot hit. -/
theorem bvh_scan (ray : Ray) (T : BVHTree) :
    ∀ rt : TInterval, WF ray T →
      BVHTree.hit ray T rt = scanFrom ray rt.min rt.max T.leaves none := by
  induction T with
  | leaf p =>
    intro rt _
    obtain ⟨rmin, rmax⟩ := rt
    simp only [BVHTree.hit, BVHTree.leaves, scanFrom, bestT]
    cases h : p.hit ray ⟨rmin, rmax⟩ with
    | some r => rfl
    | none => rfl
  | node l r b ihl ihr =>
    intro rt hwf
    obtain ⟨hwl, hwr, hlel, hler, hpb⟩ := hwf
    obtain ⟨rmin, rmax⟩ := rt
    by_cases hb : AABB.hit b ray ⟨rmin, rmax⟩ = true
    · simp only [BVHTree.hit, if_pos hb, BVHTree.leaves]
      rw [scanFrom_append]
      rw [← ihl ⟨rmin, rmax⟩ hwl]
      cases hres : BVHTree.hit ray l ⟨rmin, rmax⟩ with
      | some r0 =>
        simp only [bestT]
        rw [ihr ⟨rmin, qe r0.t⟩ hwr]
        rw [scanFrom_shift]
      | none =>
        simp only [bestT]
        rw [ihr ⟨rmin, rmax⟩ hwr]
        cases scanFrom ray rmin rmax (BVHTree.leaves r) none <;> rfl
    · have hbf : AABB.hit b ray ⟨rmin, rmax⟩ = false := by
        simpa using hb
      have hno := no_hit_of_box_miss (T := BVHTree.node l r b)
        ⟨hwl, hwr, hlel, hler, hpb⟩ hbf
      rw [scanFrom_no_hits ray rmin rmax _ (fun p hp t ht => hno p hp t ht) none le_rfl]
      simp only [BVHTree.hit, hbf]
      rfl

/-- Scanning the leaf sequence of a built tree equals scanning the
post-build list arrangement: the only difference is the duplicated child of
a single-element span, and a duplicate adjacent scan is a no-op. -/
theorem scan_leaves_eq_postList (ray : Ray) (axis : Axis) :
    ∀ n (L : List Prim), L.length ≤ n → ∀ tmin tmax0 best,
      scanFrom ray tmin tmax0 (fromVector axis L).leaves best =
        scanFrom ray tmin tmax0 (postList axis L) best := by
  intro n
  induction n with
  | zero =>
    intro L hL tmin tmax0 best
    have hnil : L = [] := List.length_eq_zero.mp (Nat.le_zero.mp hL)
    subst hnil
    simp only [fromVector, postList, BVHTree.leaves, scanFrom]
    have hjunk : Prim.hit ⟨[], 0, AABB.from_point ⟨0, 0, 0⟩ ⟨1, 1, 1⟩⟩ ray
        ⟨tmin, bestT best tmax0⟩ = none := by
      rw [Prim.hit_none_iff]
      intro t ht
      simp at ht
    rw [hjunk]
  | succ n ih =>
    intro L hL tmin tmax0 best
    rcases L with _ | ⟨a, _ | ⟨b, _ | ⟨c, rest⟩⟩⟩
    · simp only [fromVector, postList, BVHTree.leaves, scanFrom]
      have hjunk : Prim.hit ⟨[], 0, AABB.from_point ⟨0, 0, 0⟩ ⟨1, 1, 1⟩⟩ ray
          ⟨tmin, bestT best tmax0⟩ = none := by
        rw [Prim.hit_none_iff]
        intro t ht
        simp at ht
      rw [hjunk]
    · simp only [fromVector, postList, BVHTree.leaves]
      exact scanFrom_dup ray tmin tmax0 a [] best
    · simp only [fromVector, postList, BVHTree.leaves]
      rfl
    · simp only [fromVector, postList, BVHTree.leaves]
      rw [scanFrom_append, scanFrom_append]
      have hlen : (a :: b :: c :: rest).length ≤ n + 1 := hL
      have htake : ((sortObjects axis (a :: b :: c :: rest)).take
          ((a :: b :: c :: rest).length / 2)).length ≤ n := by
        simp only [List.length_take, sortObjects_length]
        simp only [List.length_cons] at hlen ⊢
        omega
      have hdrop : ((sortObjects axis (a :: b :: c :: rest)).drop
          ((a :: b :: c :: rest).length / 2)).length ≤ n := by
        simp only [List.length_drop, sortObjects_length]
        simp only [List.length_cons] at hlen ⊢
        omega
      rw [ih _ htake tmin tmax0 best]
      rw [ih _ hdrop tmin tmax0 _]

theorem sortInsert_perm (axis : Axis) (p : Prim) (l : List Prim) :
    (sortInsert axis p l).Perm (p :: l) := by
  induction l with
  | nil => exact List.Perm.refl _
  | cons q rest ih =>
    by_cases h : box_compare q p axis = Ordering.lt
    · simp only [sortInsert, if_pos h]
      exact List.Perm.trans (List.Perm.cons q ih) (List.Perm.swap p q rest)
    · simp only [sortInsert, if_neg h]
      exact List.Perm.refl _

theorem sortObjects_perm (axis : Axis) (l : List Prim) :
    (sortObjects axis l).Perm l := by
  induction l with
  | nil => exact List.Perm.refl _
  | cons p rest ih =>
    exact List.Perm.trans (sortInsert_perm axis p (sortObjects axis rest))
      (List.Perm.cons p ih)

/-- The post-build arrangement is a permutation of the scene list: the
in-place build only reorders the shared vector. -/
theorem postList_perm (axis : Axis) :
    ∀ n (L : List Prim), L.length ≤ n → (postList axis L).Perm L := by
  intro n
  induction n with
  | zero =>
    intro L hL
    have hnil : L = [] := List.length_eq_zero.mp (Nat.le_zero.mp hL)
    subst hnil
    simp only [postList]
    exact List.Perm.refl _
  | succ n ih =>
    intro L hL
    rcases L with _ | ⟨a, _ | ⟨b, _ | ⟨c, rest⟩⟩⟩
    · simp only [postList]
      exact List.Perm.refl _
    · simp only [postList]
      exact List.Perm.refl _
    · simp only [postList]
      exact List.Perm.refl _
    · simp only [postList]
      have hlen : (a :: b :: c :: rest).length ≤ n + 1 := hL
      have htake : ((sortObjects axis (a :: b :: c :: rest)).take
          ((a :: b :: c :: rest).length / 2)).length ≤ n := by
        simp only [List.length_take, sortObjects_length]
        simp only [List.length_cons] at hlen ⊢
        omega
      have hdrop : ((sortObjects axis (a :: b :: c :: rest)).drop
          ((a :: b :: c :: rest).length / 2)).length ≤ n := by
        simp only [List.length_drop, sortObjects_length]
        simp only [List.length_cons] at hlen ⊢
        omega
      have happ := List.Perm.append (ih _ htake) (ih _ hdrop)
      rw [List.take_append_drop] at happ
      exact List.Perm.trans happ (sortObjects_perm axis _)

/-- C1 model assembly: every primitive box is padded (the AABB invariant of
the data model) and speaks for its primitive under the slab test (the
Hittable bounding-box contract). -/
def SceneOK (ray : Ray) (L : List Prim) : Prop :=
  ∀ p ∈ L, PaddedBox p.box ∧ SoundPrim ray p

/-- C1: for a fixed scene assembled into a BVH by BVHNode::from_vector and
for every ray and query interval, BVHNode::hit returns the same nearest hit
record (same t, same material, same point; also the same absence of a hit)
as the brute-force linear scan HittableList::hit over the primitives, which
after the in-place build sort lie in the postBuildList arrangement.  The
scene satisfies the Hittable contract: each primitive box is padded and
encloses the primitive with respect to the slab test.  This covers the
0-hit case (both sides none), the 1-hit case, and ties between overlapping
objects (both sides keep the earlier primitive in list order, since a tie
is not strictly closer on either side). -/
theorem bvh_hit_eq_linear_scan (ray : Ray) (L : List Prim) (hne : L ≠ [])
    (hok : SceneOK ray L) (rt : TInterval) :
    BVHTree.hit ray (fromHittableList L) rt =
      HittableList.hit (postBuildList L) ray rt := by
  unfold fromHittableList postBuildList HittableList.hit
  rw [bvh_scan ray _ rt (fromVector_WF ray (sceneAxis L) L.length L le_rfl hok)]
  exact scan_leaves_eq_postList ray (sceneAxis L) L.length L le_rfl rt.min rt.max none

/-- Witness scene: a primitive hit by the witness ray at t = 1 inside the
box [0,2]^3, and a primitive with no intersections. -/
def wprim1 : Prim := ⟨[1], 7, ⟨⟨0, 2⟩, ⟨0, 2⟩, ⟨0, 2⟩⟩⟩

/-- Witness primitive with no intersections along the witness ray. -/
def wprim2 : Prim := ⟨[], 0, ⟨⟨0, 1⟩, ⟨0, 1⟩, ⟨0, 1⟩⟩⟩

/-- Witness ray from the origin along (1,1,1). -/
def wray : Ray := ⟨⟨0, 0, 0⟩, ⟨1, 1, 1⟩, 0⟩

theorem wprim1_sound : SoundPrim wray wprim1 := by
  intro rt h t ht
  simp only [wprim1, List.mem_singleton] at ht
  subst ht
  intro hs
  have hax : AABB.slab_pass ⟨0, 2⟩ 0 1 rt = true := by
    unfold AABB.slab_pass
    rw [if_neg (by norm_num)]
    simp only [decide_eq_true_eq]
    have he0 : ((0 : ℚ) - 0) * 1⁻¹ = 0 := by norm_num
    have he2 : ((2 : ℚ) - 0) * 1⁻¹ = 2 := by norm_num
    rw [he0, he2]
    have hmin : Min.min (0 : ℚ) 2 = 0 := by norm_num
    have hmax : Max.max (0 : ℚ) 2 = 2 := by norm_num
    rw [hmin, hmax]
    have hlo : Max.max rt.min (qe 0) < qe 1 := by
      apply max_lt hs.1
      rw [qe_lt_qe]
      norm_num
    have hhi : qe 1 < Min.min rt.max (qe 2) := by
      apply lt_min hs.2
      rw [qe_lt_qe]
      norm_num
    exact lt_trans hlo hhi
  have : AABB.hit wprim1.box wray rt = true := by
    unfold AABB.hit wprim1 wray
    simp only [hax, Bool.and_self]
  rw [this] at h
  exact absurd h (by simp)

theorem wprim2_sound : SoundPrim wray wprim2 := by
  intro rt h t ht
  simp only [wprim2] at ht
  exact absurd ht (List.not_mem_nil t)

theorem wscene_ok : SceneOK wray [wprim1, wprim2] := by
  intro p hp
  rcases List.mem_cons.mp hp with hp | hp
  · subst hp
    refine ⟨?_, wprim1_sound⟩
    unfold PaddedBox wprim1
    norm_num [Interval.size]
  · rw [List.mem_singleton] at hp
    subst hp
    refine ⟨?_, wprim2_sound⟩
    unfold PaddedBox wprim2
    norm_num [Interval.size]

/-- Witness for C1: the equivalence theorem applied to the concrete
two-primitive scene, the concrete ray, and the renderer query interval
[0.001, +inf). -/
theorem bvh_hit_eq_linear_scan_witness :
    ([wprim1, wprim2] ≠ ([] : List Prim)) ∧
      BVHTree.hit wray (fromHittableList [wprim1, wprim2]) ⟨qe (1 / 1000), pinfE⟩ =
        HittableList.hit (postBuildList [wprim1, wprim2]) wray ⟨qe (1 / 1000), pinfE⟩ :=
  ⟨by simp, bvh_hit_eq_linear_scan wray [wprim1, wprim2] (by simp) wscene_ok _⟩

/-- C6 amended: when BVHNode::from_vector is called on a span of exactly two
elements, the children are taken in slice order, left = objects[start] and
right = objects[start + 1]; the box-minimum comparator is not consulted at
the two-element level (sorted order at that level arises only when a larger
parent span was sorted before splitting).  The node box is
from_bounding_box of the two children boxes. -/
theorem from_vector_two_elements_slice_order (axis : Axis) (a b : Prim) :
    fromVector axis [a, b] =
      BVHTree.node (BVHTree.leaf a) (BVHTree.leaf b)
        (AABB.from_bounding_box a.box b.box) := by
  simp only [fromVector]

/-- Counterexample primitive whose box minimum along X is large. -/
def cprimA : Prim := ⟨[], 0, ⟨⟨5, 6⟩, ⟨0, 1⟩, ⟨0, 1⟩⟩⟩

/-- Counterexample primitive whose box minimum along X is small. -/
def cprimB : Prim := ⟨[], 1, ⟨⟨0, 1⟩, ⟨0, 1⟩, ⟨0, 1⟩⟩⟩

/-- C6 counterexample: on the two-element scene [cprimA, cprimB] the longest
axis of the slice bounding box is X and the comparator ranks cprimA
strictly greater than cprimB there (its interval minimum 5 exceeds 0), yet
from_vector makes cprimA the left child and cprimB the right child — the
opposite of the claimed smaller-min-left ordering. -/
theorem from_vector_two_elements_unordered_cex :
    sceneAxis [cprimA, cprimB] = Axis.X ∧
    box_compare cprimA cprimB Axis.X = Ordering.gt ∧
    (fromHittableList [cprimA, cprimB]).leftChild = BVHTree.leaf cprimA ∧
    (fromHittableList [cprimA, cprimB]).rightChild = BVHTree.leaf cprimB := by
  have hpadA : AABB.pad_to_minimums ⟨⟨5, 6⟩, ⟨0, 1⟩, ⟨0, 1⟩⟩ =
      (⟨⟨5, 6⟩, ⟨0, 1⟩, ⟨0, 1⟩⟩ : AABB) := by
    unfold AABB.pad_to_minimums
    norm_num [Interval.size]
  have hunion : AABB.from_bounding_box ⟨⟨5, 6⟩, ⟨0, 1⟩, ⟨0, 1⟩⟩ ⟨⟨0, 1⟩, ⟨0, 1⟩, ⟨0, 1⟩⟩ =
      (⟨⟨0, 6⟩, ⟨0, 1⟩, ⟨0, 1⟩⟩ : AABB) := by
    unfold AABB.from_bounding_box Interval.from_interval AABB.pad_to_minimums
    norm_num [Interval.size]
  refine ⟨?_, ?_, ?_, ?_⟩
  · show sceneAxis [cprimA, cprimB] = Axis.X
    unfold sceneAxis unionBoxAll
    simp only [List.foldl, unionStep, cprimA, cprimB]
    rw [hpadA, hunion]
    unfold AABB.longest_axis
    rw [if_pos (by norm_num [Interval.size])]
  · unfold box_compare cprimA cprimB AABB.axis_interval
    norm_num
  · simp only [fromHittableList, fromVector, BVHTree.leftChild]
  · simp only [fromHittableList, fromVector, BVHTree.rightChild]

/-- Pad step keeps a nonnegative-size axis at size at least delta. -/
theorem pad_axis_padded (i : Interval) (h : 0 ≤ i.size) :
    (1 / 10000 : ℚ) ≤ (if i.size < 1 / 10000 then i.expand (1 / 10000) else i).size := by
  split_ifs with hc
  · simp only [Interval.expand, Interval.size] at *
    linarith
  · linarith [not_lt.mp hc]

theorem union_size_ge_right (a b : Interval) : b.size ≤ (Interval.from_interval a b).size := by
  unfold Interval.from_interval Interval.size
  have h1 : b.max ≤ Max.max a.max b.max := le_max_right _ _
  have h2 : Min.min a.min b.min ≤ b.min := min_le_right _ _
  linarith

/-- C9 amended: from_point always yields a padded box (every axis size at
least 0.0001); from_interval yields a padded box provided each input
interval is not inverted (min <= max); from_bounding_box yields a padded
box provided on each axis at least one of the two inputs is not inverted.
Inverted inputs — in particular the AABB::EMPTY sentinel with min = +inf,
max = -inf — can produce a negative size that a single padding step does
not repair, which is what the counterexample exhibits. -/
theorem aabb_constructors_padded :
    (∀ a b : Vec3 ℚ, PaddedBox (AABB.from_point a b)) ∧
    (∀ x y z : Interval, x.min ≤ x.max → y.min ≤ y.max → z.min ≤ z.max →
      PaddedBox (AABB.from_interval x y z)) ∧
    (∀ b1 b2 : AABB,
      (b1.x.min ≤ b1.x.max ∨ b2.x.min ≤ b2.x.max) →
      (b1.y.min ≤ b1.y.max ∨ b2.y.min ≤ b2.y.max) →
      (b1.z.min ≤ b1.z.max ∨ b2.z.min ≤ b2.z.max) →
      PaddedBox (AABB.from_bounding_box b1 b2)) := by
  refine ⟨?_, ?_, ?_⟩
  · intro a b
    unfold AABB.from_point AABB.pad_to_minimums PaddedBox
    refine ⟨pad_axis_padded _ ?_, pad_axis_padded _ ?_, pad_axis_padded _ ?_⟩ <;>
      · simp only [Interval.size, sub_nonneg]
        exact min_le_max
  · intro x y z hx hy hz
    unfold AABB.from_interval AABB.pad_to_minimums PaddedBox
    exact ⟨pad_axis_padded _ (by simp only [Interval.size, sub_nonneg]; exact hx),
      pad_axis_padded _ (by simp only [Interval.size, sub_nonneg]; exact hy),
      pad_axis_padded _ (by simp only [Interval.size, sub_nonneg]; exact hz)⟩
  · intro b1 b2 hx hy hz
    unfold AABB.from_bounding_box AABB.pad_to_minimums PaddedBox
    refine ⟨pad_axis_padded _ ?_, pad_axis_padded _ ?_, pad_axis_padded _ ?_⟩
    · rcases hx with h | h
      · exact le_trans (by simp only [Interval.size, sub_nonneg]; exact h)
          (union_size_ge_left _ _)
      · exact le_trans (by simp only [Interval.size, sub_nonneg]; exact h)
          (union_size_ge_right _ _)
    · rcases hy with h | h
      · exact le_trans (by simp only [Interval.size, sub_nonneg]; exact h)
          (union_size_ge_left _ _)
      · exact le_trans (by simp only [Interval.size, sub_nonneg]; exact h)
          (union_size_ge_right _ _)
    · rcases hz with h | h
      · exact le_trans (by simp only [Interval.size, sub_nonneg]; exact h)
          (union_size_ge_left _ _)
      · exact le_trans (by simp only [Interval.size, sub_nonneg]; exact h)
          (union_size_ge_right _ _)

/-- Witness for C9: the three amended guarantees at concrete inputs. -/
theorem aabb_constructors_padded_witness :
    PaddedBox (AABB.from_point ⟨0, 0, 0⟩ ⟨1, 2, 3⟩) ∧
    PaddedBox (AABB.from_interval ⟨0, 1⟩ ⟨0, 1⟩ ⟨0, 1⟩) ∧
    PaddedBox (AABB.from_bounding_box ⟨⟨0, 1⟩, ⟨0, 1⟩, ⟨0, 1⟩⟩ ⟨⟨0, 2⟩, ⟨0, 2⟩, ⟨0, 2⟩⟩) :=
  ⟨aabb_constructors_padded.1 ⟨0, 0, 0⟩ ⟨1, 2, 3⟩,
   aabb_constructors_padded.2.1 ⟨0, 1⟩ ⟨0, 1⟩ ⟨0, 1⟩ (by norm_num) (by norm_num) (by norm_num),
   aabb_constructors_padded.2.2 ⟨⟨0, 1⟩, ⟨0, 1⟩, ⟨0, 1⟩⟩ ⟨⟨0, 2⟩, ⟨0, 2⟩, ⟨0, 2⟩⟩
     (Or.inl (by norm_num)) (Or.inl (by norm_num)) (Or.inl (by norm_num))⟩

/-- C9 counterexample: from_interval on the inverted interval (1, 0) pads
the x axis once, which leaves its size at -1 + 0.0001, far below the
claimed minimum 0.0001. -/
theorem aabb_pad_inverted_cex :
    ¬ ((1 / 10000 : ℚ) ≤ ((AABB.from_interval ⟨1, 0⟩ ⟨0, 1⟩ ⟨0, 1⟩).x).size) := by
  unfold AABB.from_interval AABB.pad_to_minimums
  norm_num [Interval.size, Interval.expand]

/-- Modelled from the spec: the geometric reading of the testable AABB
property in section 8 — the parametric line of the ray passes through the
implied box within the valid t interval exactly when some parameter t
strictly inside the interval places the ray point inside the box on every
axis (Interval::contains is the containment test of the source). -/
def passes_through (b : AABB) (r : Ray) (rt : TInterval) : Prop :=
  ∃ t : ℚ, rt.surrounds t ∧
    b.x.contains (r.at t).x ∧ b.y.contains (r.at t).y ∧ b.z.contains (r.at t).z

/-- C2: the code evaluated at the failing input.  For the box
from_point((0,2,0), (1,3,3)) and the ray with origin (0,0,0) and direction
(1,1,1) over the full interval, AABB::hit returns true — each axis slab
([0,1], [2,3], [0,3]) separately overlaps the original query interval,
because the implementation never narrows the interval across axes — yet no
parameter puts the ray inside the box (the x slab demands t <= 1 and the y
slab demands t >= 2), so the ray line does not pass through the box and
the specified slab test returns false. -/
theorem aabb_hit_false_positive :
    AABB.hit (AABB.from_point ⟨0, 2, 0⟩ ⟨1, 3, 3⟩) ⟨⟨0, 0, 0⟩, ⟨1, 1, 1⟩, 0⟩
        TInterval.univI = true ∧
    ¬ passes_through (AABB.from_point ⟨0, 2, 0⟩ ⟨1, 3, 3⟩) ⟨⟨0, 0, 0⟩, ⟨1, 1, 1⟩, 0⟩
        TInterval.univI := by
  have hbox : AABB.from_point ⟨0, 2, 0⟩ ⟨1, 3, 3⟩ =
      (⟨⟨0, 1⟩, ⟨2, 3⟩, ⟨0, 3⟩⟩ : AABB) := by
    unfold AABB.from_point AABB.pad_to_minimums
    norm_num [Interval.size]
  have hslab : ∀ lo hi : ℚ, lo < hi →
      AABB.slab_pass ⟨lo, hi⟩ 0 1 TInterval.univI = true := by
    intro lo hi hlt
    unfold AABB.slab_pass TInterval.univI
    rw [if_neg (by norm_num)]
    simp only [decide_eq_true_eq]
    have e0 : (lo - 0) * 1⁻¹ = lo := by norm_num
    have e1 : (hi - 0) * 1⁻¹ = hi := by norm_num
    rw [e0, e1, min_eq_left hlt.le, max_eq_right hlt.le]
    rw [max_eq_right (ninfE_lt_qe lo).le, min_eq_right (qe_lt_pinfE hi).le]
    exact qe_lt_qe.mpr hlt
  constructor
  · rw [hbox]
    unfold AABB.hit
    rw [hslab 0 1 (by norm_num), hslab 2 3 (by norm_num), hslab 0 3 (by norm_num)]
    rfl
  · rw [hbox]
    rintro ⟨t, -, hx, hy, -⟩
    simp only [Interval.contains, Ray.at] at hx hy
    have h1 : t ≤ 1 := by linarith [hx.2]
    have h2 : 2 ≤ t := by linarith [hy.1]
    linarith

/-- Modelled from the spec: the unit basis vectors E1, E2, E3 of Vec3f.
The revision of src/vec3/mod.rs present in the tree predates these
constants (the ONB and Hittable modules reference them); the design text
describes them as the world axes used for the ONB helper pick and the
default sampling direction, so E1 = (1,0,0), E2 = (0,1,0), E3 = (0,0,1). -/
def E1 {α : Type} [Zero α] [One α] : Vec3 α := ⟨1, 0, 0⟩

/-- Second world axis; see E1. -/
def E2 {α : Type} [Zero α] [One α] : Vec3 α := ⟨0, 1, 0⟩

/-- Default Hittable::random from src/hittable/mod.rs lines 42-44: any
origin maps to Vec3f::E1. -/
def hittable_random_default (origin : Vec3 ℚ) : Vec3 ℚ := E1

/-- HittableList::random from src/hittable_list/mod.rs lines 92-97: choose a
random element of the object list and delegate to its random; when the list
is empty, choose returns None and the function returns Vec3f::ZERO.  The
elements are abstracted by their random functions and the RNG draw by the
chosen index. -/
def hittable_list_random (objects : List (Vec3 ℚ → Vec3 ℚ)) (pick : ℕ)
    (origin : Vec3 ℚ) : Vec3 ℚ :=
  match objects[pick % objects.length]? with
  | some f => f origin
  | none => ⟨0, 0, 0⟩

/-- From src/vec3/mod.rs (Vec3f::length_squared), over the rationals. -/
def Vec3.length_squared_q (v : Vec3 ℚ) : ℚ := v.x * v.x + v.y * v.y + v.z * v.z

/-- C10: HittableList::random on an empty list returns the zero vector,
while the Hittable trait default random returns the unit basis vector E1;
in the empty-list case the returned sampling direction is therefore not a
unit vector (its squared length is 0, not 1). -/
theorem hittable_list_random_empty_zero (pick : ℕ) (origin : Vec3 ℚ) :
    hittable_list_random [] pick origin = ⟨0, 0, 0⟩ ∧
    hittable_random_default origin = ⟨1, 0, 0⟩ ∧
    Vec3.length_squared_q (hittable_list_random [] pick origin) ≠ 1 := by
  refine ⟨rfl, rfl, ?_⟩
  show Vec3.length_squared_q ⟨0, 0, 0⟩ ≠ 1
  norm_num [Vec3.length_squared_q]

namespace Vec3f

/-- From src/vec3/mod.rs (Vec3f::dot). -/
def dot (v1 v2 : Vec3 ℝ) : ℝ := v1.x * v2.x + v1.y * v2.y + v1.z * v2.z

/-- From src/vec3/mod.rs (Vec3f::cross). -/
def cross (v1 v2 : Vec3 ℝ) : Vec3 ℝ :=
  ⟨v1.y * v2.z - v1.z * v2.y,
   v1.z * v2.x - v1.x * v2.z,
   v1.x * v2.y - v1.y * v2.x⟩

/-- From src/vec3/mod.rs (Vec3f::length_squared). -/
def length_squared (v : Vec3 ℝ) : ℝ := v.x * v.x + v.y * v.y + v.z * v.z

/-- From src/vec3/mod.rs (Vec3f::length): square root of length_squared. -/
noncomputable def length (v : Vec3 ℝ) : ℝ := Real.sqrt (length_squared v)

/-- From src/vec3/mod.rs (Vec3f::unit_vector): v / v.length(),
componentwise scalar division. -/
noncomputable def unit_vector (v : Vec3 ℝ) : Vec3 ℝ :=
  ⟨v.x / length v, v.y / length v, v.z / length v⟩

/-- Componentwise negation (unary minus of Vec3f). -/
def neg (v : Vec3 ℝ) : Vec3 ℝ := ⟨-v.x, -v.y, -v.z⟩

theorem length_squared_nonneg (v : Vec3 ℝ) : 0 ≤ length_squared v := by
  unfold length_squared
  have hx := mul_self_nonneg v.x
  have hy := mul_self_nonneg v.y
  have hz := mul_self_nonneg v.z
  linarith

theorem length_squared_pos {v : Vec3 ℝ} (h : v ≠ ⟨0, 0, 0⟩) : 0 < length_squared v := by
  rcases lt_or_eq_of_le (length_squared_nonneg v) with hlt | heq
  · exact hlt
  · exfalso
    apply h
    have h0 : v.x * v.x + v.y * v.y + v.z * v.z = 0 := by
      unfold length_squared at heq
      linarith
    have hx : v.x = 0 := by
      have := mul_self_nonneg v.x
      have := mul_self_nonneg v.y
      have := mul_self_nonneg v.z
      have : v.x * v.x = 0 := by linarith
      exact mul_self_eq_zero.mp this
    have hy : v.y = 0 := by
      have := mul_self_nonneg v.x
      have := mul_self_nonneg v.y
      have := mul_self_nonneg v.z
      have : v.y * v.y = 0 := by linarith
      exact mul_self_eq_zero.mp this
    have hz : v.z = 0 := by
      have := mul_self_nonneg v.x
      have := mul_self_nonneg v.y
      have := mul_self_nonneg v.z
      have : v.z * v.z = 0 := by linarith
      exact mul_self_eq_zero.mp this
    ext <;> simp [hx, hy, hz]

theorem length_mul_self (v : Vec3 ℝ) : length v * length v = length_squared v :=
  Real.mul_self_sqrt (length_squared_nonneg v)

theorem length_ne_zero {v : Vec3 ℝ} (h : length_squared v ≠ 0) : length v ≠ 0 := by
  intro h0
  apply h
  rw [← length_mul_self, h0, mul_zero]

/-- The unit vector of a vector of nonzero squared length has unit dot with
itself. -/
theorem dot_unit_self {v : Vec3 ℝ} (h : length_squared v ≠ 0) :
    dot (unit_vector v) (unit_vector v) = 1 := by
  have hL := length_ne_zero h
  unfold dot unit_vector
  have hcalc : v.x / length v * (v.x / length v) + v.y / length v * (v.y / length v) +
      v.z / length v * (v.z / length v) = length_squared v / (length v * length v) := by
    unfold length_squared
    field_simp
  rw [hcalc, length_mul_self]
  exact div_self h

theorem dot_unit_left (c w : Vec3 ℝ) : dot (unit_vector c) w = dot c w / length c := by
  unfold dot unit_vector
  ring

theorem dot_unit_right (w c : Vec3 ℝ) : dot w (unit_vector c) = dot w c / length c := by
  unfold dot unit_vector
  ring

theorem length_squared_eq_dot (v : Vec3 ℝ) : length_squared v = dot v v := rfl

/-- Lagrange identity for the cross product. -/
theorem length_squared_cross (a b : Vec3 ℝ) :
    length_squared (cross a b) = length_squared a * length_squared b - dot a b * dot a b := by
  unfold length_squared cross dot
  ring

theorem dot_self_cross (a b : Vec3 ℝ) : dot a (cross a b) = 0 := by
  unfold dot cross
  ring

theorem dot_cross_left (a b : Vec3 ℝ) : dot (cross a b) a = 0 := by
  unfold dot cross
  ring

theorem dot_cross_right (a b : Vec3 ℝ) : dot (cross a b) b = 0 := by
  unfold dot cross
  ring

/-- Expansion of (a x b) x b. -/
theorem cross_cross_self (a b : Vec3 ℝ) :
    cross (cross a b) b =
      ⟨dot a b * b.x - dot b b * a.x,
       dot a b * b.y - dot b b * a.y,
       dot a b * b.z - dot b b * a.z⟩ := by
  unfold cross dot
  ext <;> ring

theorem cross_anticomm (a b : Vec3 ℝ) : cross a b = neg (cross b a) := by
  unfold cross neg
  ext <;> ring

end Vec3f

/-- Orthonormal basis, from src/onb/mod.rs (struct ONB). -/
structure ONB where
  u : Vec3 ℝ
  v : Vec3 ℝ
  w : Vec3 ℝ

/-- ONB::new from src/onb/mod.rs lines 61-73: w is the unit vector of n;
the helper axis a is E2 when |w.x| > 0.9 and E1 otherwise; v is the unit
vector of cross(w, a); u is cross(w, v). -/
noncomputable def ONB.new (n : Vec3 ℝ) : ONB :=
  let w := Vec3f.unit_vector n
  let a := if |w.x| > 0.9 then E2 else E1
  let v := Vec3f.unit_vector (Vec3f.cross w a)
  let u := Vec3f.cross w v
  ⟨u, v, w⟩

/-- C7 amended: for every nonzero n, ONB::new(n) produces w equal to the
unit vector of n and a pairwise orthogonal triple of unit vectors, but the
triple is left-handed: u x v = -w (equivalently v x u = w), not u x v = w
as claimed. -/
theorem onb_orthonormal_left_handed (n : Vec3 ℝ) (hn : n ≠ ⟨0, 0, 0⟩) :
    (ONB.new n).w = Vec3f.unit_vector n ∧
    Vec3f.dot (ONB.new n).u (ONB.new n).u = 1 ∧
    Vec3f.dot (ONB.new n).v (ONB.new n).v = 1 ∧
    Vec3f.dot (ONB.new n).w (ONB.new n).w = 1 ∧
    Vec3f.dot (ONB.new n).u (ONB.new n).v = 0 ∧
    Vec3f.dot (ONB.new n).u (ONB.new n).w = 0 ∧
    Vec3f.dot (ONB.new n).v (ONB.new n).w = 0 ∧
    Vec3f.cross (ONB.new n).u (ONB.new n).v = Vec3f.neg (ONB.new n).w ∧
    Vec3f.cross (ONB.new n).v (ONB.new n).u = (ONB.new n).w := by
  have hlsq : Vec3f.length_squared n ≠ 0 := (Vec3f.length_squared_pos hn).ne.symm
  set w := Vec3f.unit_vector n with hw_def
  have hww : Vec3f.dot w w = 1 := Vec3f.dot_unit_self hlsq
  have hlw : Vec3f.length_squared w = 1 := by
    rw [Vec3f.length_squared_eq_dot]
    exact hww
  set a : Vec3 ℝ := if |w.x| > 0.9 then E2 else E1 with ha_def
  have hla : Vec3f.length_squared a = 1 := by
    rw [ha_def]
    split_ifs <;> norm_num [Vec3f.length_squared, E1, E2]
  have hwa : Vec3f.dot w a * Vec3f.dot w a < 1 := by
    rw [ha_def]
    split_ifs with habs
    · have hdot : Vec3f.dot w E2 = w.y := by
        unfold Vec3f.dot E2
        ring
      rw [hdot]
      have hx2 : 81 / 100 < w.x * w.x := by
        have h1 : (0.9 : ℝ) < |w.x| := habs
        have h2 : |w.x| * |w.x| = w.x * w.x := by
          rw [← abs_mul, abs_mul_self]
        nlinarith [abs_nonneg w.x]
      have hsum : w.x * w.x + w.y * w.y + w.z * w.z = 1 := hlw
      nlinarith [mul_self_nonneg w.z]
    · have hdot : Vec3f.dot w E1 = w.x := by
        unfold Vec3f.dot E1
        ring
      rw [hdot]
      have h1 : |w.x| ≤ 0.9 := le_of_not_lt habs
      have h2 : |w.x| * |w.x| = w.x * w.x := by
        rw [← abs_mul, abs_mul_self]
      nlinarith [abs_nonneg w.x]
  set c := Vec3f.cross w a with hc_def
  have hlc : Vec3f.length_squared c = 1 - Vec3f.dot w a * Vec3f.dot w a := by
    rw [hc_def, Vec3f.length_squared_cross, hlw, hla]
    ring
  have hlc_pos : 0 < Vec3f.length_squared c := by
    rw [hlc]
    linarith
  set v := Vec3f.unit_vector c with hv_def
  have hvv : Vec3f.dot v v = 1 := Vec3f.dot_unit_self hlc_pos.ne.symm
  have hwc : Vec3f.dot w c = 0 := by
    rw [hc_def]
    exact Vec3f.dot_self_cross w a
  have hwv : Vec3f.dot w v = 0 := by
    rw [hv_def, Vec3f.dot_unit_right, hwc, zero_div]
  set u := Vec3f.cross w v with hu_def
  have hlv : Vec3f.length_squared v = 1 := by
    rw [Vec3f.length_squared_eq_dot]
    exact hvv
  have huu : Vec3f.dot u u = 1 := by
    rw [← Vec3f.length_squared_eq_dot, hu_def, Vec3f.length_squared_cross, hlw, hlv, hwv]
    ring
  have huv : Vec3f.dot u v = 0 := by
    rw [hu_def]
    exact Vec3f.dot_cross_right w v
  have huw : Vec3f.dot u w = 0 := by
    rw [hu_def]
    exact Vec3f.dot_cross_left w v
  have hvw : Vec3f.dot v w = 0 := by
    have : Vec3f.dot v w = Vec3f.dot w v := by
      unfold Vec3f.dot
      ring
    rw [this, hwv]
  have hcross : Vec3f.cross u v = Vec3f.neg w := by
    rw [hu_def, Vec3f.cross_cross_self, hwv, hvv]
    unfold Vec3f.neg
    ext <;> ring
  have hcross2 : Vec3f.cross v u = w := by
    rw [Vec3f.cross_anticomm, hcross]
    unfold Vec3f.neg
    ext <;> ring
  have hnew : ONB.new n = ⟨u, v, w⟩ := by
    rw [ONB.new]
  rw [hnew]
  exact ⟨rfl, huu, hvv, hww, huv, huw, hvw, hcross, hcross2⟩

/-- Witness for C7: the amended basis properties at the nonzero input
(3, 0, 4). -/
theorem onb_orthonormal_left_handed_witness :
    ((⟨3, 0, 4⟩ : Vec3 ℝ) ≠ ⟨0, 0, 0⟩) ∧
    Vec3f.cross (ONB.new ⟨3, 0, 4⟩).v (ONB.new ⟨3, 0, 4⟩).u = (ONB.new ⟨3, 0, 4⟩).w :=
  ⟨by intro h; have := congrArg Vec3.x h; norm_num at this,
   (onb_orthonormal_left_handed ⟨3, 0, 4⟩
     (by intro h; have := congrArg Vec3.x h; norm_num at this)).2.2.2.2.2.2.2.2⟩

/-- C7 counterexample: at the nonzero input n = (0, 0, 1) the basis built
by ONB::new is u = (-1,0,0), v = (0,1,0), w = (0,0,1), and u x v is
(0,0,-1), not w: the triple fails the claimed right-handedness u x v = w. -/
theorem onb_not_right_handed_cex :
    ((⟨0, 0, 1⟩ : Vec3 ℝ) ≠ ⟨0, 0, 0⟩) ∧
    Vec3f.cross (ONB.new ⟨0, 0, 1⟩).u (ONB.new ⟨0, 0, 1⟩).v ≠ (ONB.new ⟨0, 0, 1⟩).w := by
  have hw : Vec3f.unit_vector ⟨0, 0, 1⟩ = (⟨0, 0, 1⟩ : Vec3 ℝ) := by
    unfold Vec3f.unit_vector Vec3f.length Vec3f.length_squared
    norm_num
  have hv : Vec3f.unit_vector ⟨0, 1, 0⟩ = (⟨0, 1, 0⟩ : Vec3 ℝ) := by
    unfold Vec3f.unit_vector Vec3f.length Vec3f.length_squared
    norm_num
  have hnew : ONB.new ⟨0, 0, 1⟩ = ⟨⟨-1, 0, 0⟩, ⟨0, 1, 0⟩, ⟨0, 0, 1⟩⟩ := by
    rw [ONB.new]
    simp only [hw]
    rw [if_neg (by norm_num)]
    have hc : Vec3f.cross ⟨0, 0, 1⟩ E1 = (⟨0, 1, 0⟩ : Vec3 ℝ) := by
      unfold Vec3f.cross E1
      ext <;> norm_num
    rw [hc, hv]
    have hu : Vec3f.cross ⟨0, 0, 1⟩ ⟨0, 1, 0⟩ = (⟨-1, 0, 0⟩ : Vec3 ℝ) := by
      unfold Vec3f.cross
      ext <;> norm_num
    rw [hu]
  refine ⟨by intro h; have := congrArg Vec3.z h; norm_num at this, ?_⟩
  rw [hnew]
  intro h
  have : Vec3f.cross ⟨-1, 0, 0⟩ ⟨0, 1, 0⟩ = (⟨0, 0, -1⟩ : Vec3 ℝ) := by
    unfold Vec3f.cross
    ext <;> norm_num
  rw [this] at h
  have := congrArg Vec3.z h
  norm_num at this

/-- Lambertian::scattering_pdf from src/material/mod.rs lines 79-86:
cos_theta is the dot of the hit normal with the unit scattered direction;
negative cosine gives zero, otherwise cos_theta / pi. -/
noncomputable def scattering_pdf (normal scattered_dir : Vec3 ℝ) : ℝ :=
  let cos_theta := Vec3f.dot normal (Vec3f.unit_vector scattered_dir)
  if cos_theta < 0 then 0 else cos_theta / Real.pi

/-- CosinePDF::value from src/pdf/mod.rs lines 49-52 for the PDF built by
CosinePDF::new(normal): cosine_theta is the dot of the unit direction with
the w axis of ONB::new(normal); the density is max(0, cosine_theta / pi). -/
noncomputable def cosine_pdf_value (normal direction : Vec3 ℝ) : ℝ :=
  Max.max 0 (Vec3f.dot (Vec3f.unit_vector direction) (ONB.new normal).w / Real.pi)

/-- C3: for a hit record with a unit surface normal and any scattered ray,
Lambertian::scattering_pdf agrees exactly with
CosinePDF::new(normal).value(scattered direction), and both equal
max(0, cos theta) / pi with theta measured between the scattered direction
and the normal. -/
theorem lambertian_scattering_pdf_eq_cosine (normal dir : Vec3 ℝ)
    (hn : Vec3f.length_squared normal = 1) :
    scattering_pdf normal dir = cosine_pdf_value normal dir ∧
    scattering_pdf normal dir =
      Max.max 0 (Vec3f.dot normal (Vec3f.unit_vector dir)) / Real.pi := by
  have hw : (ONB.new normal).w = normal := by
    show Vec3f.unit_vector normal = normal
    unfold Vec3f.unit_vector Vec3f.length
    rw [hn, Real.sqrt_one]
    ext <;> simp
  have hc : Vec3f.dot (Vec3f.unit_vector dir) (ONB.new normal).w =
      Vec3f.dot normal (Vec3f.unit_vector dir) := by
    rw [hw]
    unfold Vec3f.dot
    ring
  unfold scattering_pdf cosine_pdf_value
  rw [hc]
  constructor
  · by_cases h : Vec3f.dot normal (Vec3f.unit_vector dir) < 0
    · rw [if_pos h, max_eq_left (le_of_lt (div_neg_of_neg_of_pos h Real.pi_pos))]
    · rw [if_neg h, max_eq_right (div_nonneg (not_lt.mp h) Real.pi_pos.le)]
  · by_cases h : Vec3f.dot normal (Vec3f.unit_vector dir) < 0
    · rw [if_pos h, max_eq_left h.le, zero_div]
    · rw [if_neg h, max_eq_right (not_lt.mp h)]

/-- Witness for C3: the equality at the unit normal (0,0,1) and the
scattered direction (1,2,3). -/
theorem lambertian_scattering_pdf_eq_cosine_witness :
    Vec3f.length_squared ⟨0, 0, 1⟩ = 1 ∧
    scattering_pdf ⟨0, 0, 1⟩ ⟨1, 2, 3⟩ = cosine_pdf_value ⟨0, 0, 1⟩ ⟨1, 2, 3⟩ :=
  ⟨by norm_num [Vec3f.length_squared],
   (lambertian_scattering_pdf_eq_cosine ⟨0, 0, 1⟩ ⟨1, 2, 3⟩
     (by norm_num [Vec3f.length_squared])).1⟩

/-- MixturePDF::value from src/pdf/mod.rs lines 94-96: half the light pdf
density plus half the surface pdf density, for arbitrary child PDF value
functions. -/
def mixture_pdf_value (light_pdf surface_pdf : Vec3 ℝ → ℝ) (direction : Vec3 ℝ) : ℝ :=
  0.5 * light_pdf direction + 0.5 * surface_pdf direction

/-- C4: MixturePDF::value is exactly the arithmetic mean of the two child
densities at every direction, including directions where one child has
zero density (then the mixture density is half the other density). -/
theorem mixture_pdf_value_eq_average (f g : Vec3 ℝ → ℝ) (d : Vec3 ℝ) :
    mixture_pdf_value f g d = (f d + g d) / 2 ∧
    (f d = 0 → mixture_pdf_value f g d = g d / 2) ∧
    (g d = 0 → mixture_pdf_value f g d = f d / 2) := by
  refine ⟨?_, ?_, ?_⟩
  · unfold mixture_pdf_value
    norm_num
    ring
  · intro h
    unfold mixture_pdf_value
    rw [h]
    ring
  · intro h
    unfold mixture_pdf_value
    rw [h]
    ring

/-- Witness for C4: the mean property at concrete children, one of zero
density at the sampled direction. -/
theorem mixture_pdf_value_eq_average_witness :
    mixture_pdf_value (fun _ => 0) (fun _ => 3) ⟨0, 0, 1⟩ =
        ((fun _ : Vec3 ℝ => (0 : ℝ)) ⟨0, 0, 1⟩ + (fun _ : Vec3 ℝ => (3 : ℝ)) ⟨0, 0, 1⟩) / 2 ∧
    mixture_pdf_value (fun _ => 0) (fun _ => 3) ⟨0, 0, 1⟩ =
        (fun _ : Vec3 ℝ => (3 : ℝ)) ⟨0, 0, 1⟩ / 2 ∧
    mixture_pdf_value (fun _ => 3) (fun _ => 0) ⟨0, 0, 1⟩ =
        (fun _ : Vec3 ℝ => (3 : ℝ)) ⟨0, 0, 1⟩ / 2 :=
  ⟨(mixture_pdf_value_eq_average (fun _ => 0) (fun _ => 3) ⟨0, 0, 1⟩).1,
   (mixture_pdf_value_eq_average (fun _ => 0) (fun _ => 3) ⟨0, 0, 1⟩).2.1 rfl,
   (mixture_pdf_value_eq_average (fun _ => 3) (fun _ => 0) ⟨0, 0, 1⟩).2.2 rfl⟩

/-- IEEE-style f64 scalar for the claims that manipulate NaN and infinity:
a finite real, a signed infinity, or NaN.  The negative zero of f64 is not
distinguished from zero (no claim here depends on the sign of zero). -/
inductive F where
  | nan : F
  | pinf : F
  | ninf : F
  | val (x : ℝ) : F

namespace F

/-- IEEE f64 addition on the model scalars. -/
noncomputable def add : F → F → F
  | nan, _ => nan
  | _, nan => nan
  | pinf, ninf => nan
  | ninf, pinf => nan
  | pinf, _ => pinf
  | _, pinf => pinf
  | ninf, _ => ninf
  | _, ninf => ninf
  | val a, val b => val (a + b)

/-- IEEE f64 multiplication on the model scalars: infinity times zero is
NaN, otherwise signs multiply. -/
noncomputable def mul : F → F → F
  | nan, _ => nan
  | _, nan => nan
  | pinf, pinf => pinf
  | pinf, ninf => ninf
  | ninf, pinf => ninf
  | ninf, ninf => pinf
  | pinf, val b => if 0 < b then pinf else if b < 0 then ninf else nan
  | val a, pinf => if 0 < a then pinf else if a < 0 then ninf else nan
  | ninf, val b => if 0 < b then ninf else if b < 0 then pinf else nan
  | val a, ninf => if 0 < a then ninf else if a < 0 then pinf else nan
  | val a, val b => val (a * b)

/-- IEEE f64 division on the model scalars: a nonzero finite value divided
by zero is a signed infinity, zero divided by zero is NaN, infinity over
infinity is NaN, and a finite value over infinity is zero. -/
noncomputable def div : F → F → F
  | nan, _ => nan
  | _, nan => nan
  | pinf, pinf => nan
  | pinf, ninf => nan
  | ninf, pinf => nan
  | ninf, ninf => nan
  | pinf, val b => if 0 ≤ b then pinf else ninf
  | ninf, val b => if 0 ≤ b then ninf else pinf
  | val _, pinf => val 0
  | val _, ninf => val 0
  | val a, val b =>
    if b = 0 then (if a = 0 then nan else if 0 < a then pinf else ninf)
    else val (a / b)

end F

/-- linear_to_gamma from src/color/mod.rs lines 7-12: a component greater
than 0.0 maps to its square root, anything else (zero, negatives, and NaN,
for which the IEEE comparison NaN > 0.0 is false) maps to 0.0. -/
noncomputable def linear_to_gamma : F → F
  | F.nan => F.val 0
  | F.pinf => F.pinf
  | F.ninf => F.val 0
  | F.val x => if 0 < x then F.val (Real.sqrt x) else F.val 0

/-- The NaN replacement of write_color (src/color/mod.rs lines 19-28):
a NaN component becomes 0.0, everything else is untouched. -/
def replace_nan : F → F
  | F.nan => F.val 0
  | x => x

/-- Interval::new(0.0, 0.999).clamp of src/color/mod.rs line 30 applied at
IEEE semantics (src/interval/mod.rs clamp: if x < min return min, if
x > max return max, else x; both comparisons are false for NaN, which is
returned unchanged; the infinities clamp to the respective bound). -/
noncomputable def intensity_clamp : F → F
  | F.nan => F.nan
  | F.pinf => F.val 0.999
  | F.ninf => F.val 0
  | F.val x => if x < 0 then F.val 0 else if x > 0.999 then F.val 0.999 else F.val x

/-- The `as u8` cast of src/color/mod.rs lines 31-33: Rust float-to-integer
casts saturate, so NaN gives 0, values at or below 0 give 0, values at or
above 256 give 255, and other values truncate (floor, as they are
nonnegative). -/
noncomputable def toByte : F → ℕ
  | F.nan => 0
  | F.pinf => 255
  | F.ninf => 0
  | F.val x => Int.toNat (Max.max 0 (Min.min 255 ⌊x⌋))

/-- write_color from src/color/mod.rs lines 14-36, with the output string
abstracted to the three quantized bytes it formats: gamma-correct each
channel, replace NaN by zero, clamp to [0, 0.999], scale by 256 and cast. -/
noncomputable def write_color (pixel_color : Vec3 F) : ℕ × ℕ × ℕ :=
  let r := replace_nan (linear_to_gamma pixel_color.x)
  let g := replace_nan (linear_to_gamma pixel_color.y)
  let b := replace_nan (linear_to_gamma pixel_color.z)
  (toByte (F.mul (F.val 256) (intensity_clamp r)),
   toByte (F.mul (F.val 256) (intensity_clamp g)),
   toByte (F.mul (F.val 256) (intensity_clamp b)))

/-- C8: write_color maps a channel whose gamma-corrected value is exactly
0.0 to byte 0 and one whose gamma-corrected value is exactly 1.0 to byte
255 (1.0 clamps to 0.999 and 256 * 0.999 truncates to 255), and maps a NaN
channel to byte 0 rather than an undefined byte (NaN > 0.0 is already
false in linear_to_gamma, and the explicit NaN replacement also yields 0);
the linear inputs 0.0 and 1.0 indeed have gamma values exactly 0.0 and
1.0. -/
theorem write_color_quantization :
    write_color ⟨F.val 0, F.val 1, F.nan⟩ = (0, 255, 0) ∧
    write_color ⟨F.nan, F.val 0, F.val 1⟩ = (0, 0, 255) ∧
    linear_to_gamma (F.val 0) = F.val 0 ∧
    linear_to_gamma (F.val 1) = F.val 1 := by
  have hg0 : linear_to_gamma (F.val 0) = F.val 0 := by
    simp only [linear_to_gamma]
    norm_num
  have hg1 : linear_to_gamma (F.val 1) = F.val 1 := by
    simp only [linear_to_gamma]
    rw [if_pos (by norm_num), Real.sqrt_one]
  have hfloor : ⌊(256 : ℝ) * 0.999⌋ = 255 := by
    rw [Int.floor_eq_iff]
    norm_num
  have h0 : toByte (F.mul (F.val 256) (intensity_clamp (replace_nan
      (linear_to_gamma (F.val 0))))) = 0 := by
    rw [hg0]
    rw [show replace_nan (F.val 0) = F.val 0 from rfl]
    rw [show intensity_clamp (F.val 0) = F.val 0 by
      simp only [intensity_clamp]
      norm_num]
    rw [show F.mul (F.val 256) (F.val 0) = F.val (256 * 0) from rfl]
    simp only [toByte]
    norm_num
  have h1 : toByte (F.mul (F.val 256) (intensity_clamp (replace_nan
      (linear_to_gamma (F.val 1))))) = 255 := by
    rw [hg1]
    rw [show replace_nan (F.val 1) = F.val 1 from rfl]
    rw [show intensity_clamp (F.val 1) = F.val 0.999 by
      simp only [intensity_clamp]
      rw [if_neg (by norm_num), if_pos (by norm_num)]]
    rw [show F.mul (F.val 256) (F.val 0.999) = F.val (256 * 0.999) from rfl]
    simp only [toByte]
    rw [hfloor]
    norm_num
    rfl
  have hn : toByte (F.mul (F.val 256) (intensity_clamp (replace_nan
      (linear_to_gamma F.nan)))) = 0 := by
    rw [show linear_to_gamma F.nan = F.val 0 from rfl]
    rw [show replace_nan (F.val 0) = F.val 0 from rfl]
    rw [show intensity_clamp (F.val 0) = F.val 0 by
      simp only [intensity_clamp]
      norm_num]
    rw [show F.mul (F.val 256) (F.val 0) = F.val (256 * 0) from rfl]
    simp only [toByte]
    norm_num
  refine ⟨?_, ?_, hg0, hg1⟩
  · show (toByte _, toByte _, toByte _) = (0, 255, 0)
    rw [h0, h1, hn]
  · show (toByte _, toByte _, toByte _) = (0, 0, 255)
    rw [h0, h1, hn]

/-- The scatter combination of Camera::ray_color, src/camera/mod.rs lines
198-205: color_from_scatter = (attenuation * scattering_pdf * sample_color)
/ pdf_value, channel by channel, where pdf_value is the density the sampled
mixture PDF reports for the generated direction. -/
noncomputable def color_from_scatter (attenuation : Vec3 F) (scattering_pdf : F)
    (sample_color : Vec3 F) (pdf_value : F) : Vec3 F :=
  ⟨F.div (F.mul (F.mul attenuation.x scattering_pdf) sample_color.x) pdf_value,
   F.div (F.mul (F.mul attenuation.y scattering_pdf) sample_color.y) pdf_value,
   F.div (F.mul (F.mul attenuation.z scattering_pdf) sample_color.z) pdf_value⟩

/-- The value returned from the scatter branch of Camera::ray_color,
src/camera/mod.rs line 205: color_from_emission + color_from_scatter. -/
noncomputable def ray_color_return (color_from_emission scatter_color : Vec3 F) : Vec3 F :=
  ⟨F.add color_from_emission.x scatter_color.x,
   F.add color_from_emission.y scatter_color.y,
   F.add color_from_emission.z scatter_color.z⟩

/-- C5 counterexample: with unit attenuation, zero material scattering
density, a finite sample color and zero mixture density, the computed
scatter color of ray_color is (1 * 0 * 0.5) / 0 = NaN in every channel: it
is not replaced by zero, and the NaN propagates through the emission
addition into the returned color.  The claimed guard does not exist. -/
theorem ray_color_zero_density_not_guarded_cex :
    color_from_scatter ⟨F.val 1, F.val 1, F.val 1⟩ (F.val 0)
        ⟨F.val 0.5, F.val 0.5, F.val 0.5⟩ (F.val 0) = ⟨F.nan, F.nan, F.nan⟩ ∧
    color_from_scatter ⟨F.val 1, F.val 1, F.val 1⟩ (F.val 0)
        ⟨F.val 0.5, F.val 0.5, F.val 0.5⟩ (F.val 0) ≠ ⟨F.val 0, F.val 0, F.val 0⟩ ∧
    ray_color_return ⟨F.val 0, F.val 0, F.val 0⟩ ⟨F.nan, F.nan, F.nan⟩ =
      ⟨F.nan, F.nan, F.nan⟩ := by
  have hch : F.div (F.mul (F.mul (F.val 1) (F.val 0)) (F.val 0.5)) (F.val 0) = F.nan := by
    rw [show F.mul (F.val 1) (F.val 0) = F.val (1 * 0) from rfl]
    rw [show F.mul (F.val (1 * 0)) (F.val 0.5) = F.val (1 * 0 * 0.5) from rfl]
    unfold F.div
    norm_num
  refine ⟨?_, ?_, rfl⟩
  · unfold color_from_scatter
    rw [hch]
  · unfold color_from_scatter
    rw [hch]
    intro h
    have := congrArg Vec3.x h
    simp at this
  
/-- C5 amended: Camera::ray_color performs the division by the sampled
mixture density without any guard.  When that density is zero, each
channel of color_from_scatter is NaN if the numerator
attenuation * scattering_pdf * sample is zero (in particular whenever the
material scattering_pdf is zero) and a signed infinity otherwise; a NaN
channel then propagates through the emission addition into the returned
color.  NaN components are replaced by zero only later, in write_color. -/
theorem ray_color_zero_density_propagates (a s c e : ℝ) :
    (color_from_scatter ⟨F.val a, F.val a, F.val a⟩ (F.val s)
        ⟨F.val c, F.val c, F.val c⟩ (F.val 0)).x =
      (if a * s * c = 0 then F.nan
       else if 0 < a * s * c then F.pinf else F.ninf) ∧
    (color_from_scatter ⟨F.val a, F.val 0, F.val a⟩ (F.val 0)
        ⟨F.val c, F.val c, F.val c⟩ (F.val 0)).y = F.nan ∧
    F.add (F.val e) F.nan = F.nan := by
  refine ⟨?_, ?_, rfl⟩
  · show F.div (F.mul (F.mul (F.val a) (F.val s)) (F.val c)) (F.val 0) = _
    rw [show F.mul (F.val a) (F.val s) = F.val (a * s) from rfl]
    rw [show F.mul (F.val (a * s)) (F.val c) = F.val (a * s * c) from rfl]
    simp only [F.div]
    rw [if_pos trivial]
  · show F.div (F.mul (F.mul (F.val 0) (F.val 0)) (F.val c)) (F.val 0) = F.nan
    rw [show F.mul (F.val 0) (F.val 0) = F.val (0 * 0) from rfl]
    rw [show F.mul (F.val (0 * 0)) (F.val c) = F.val (0 * 0 * c) from rfl]
    simp only [F.div]
    norm_num

end RT
